import Mathlib

/- Verification of the DDL segmentation and change-detection engine in
   src/app/bin/app.py, as a shallow embedding.  Python strings are modelled as
   `List Char`, Python dictionaries as insertion-ordered association lists with
   unique keys, and raised Python exceptions as `Except PyErr`.  Function names
   follow the source (snake_case rendered as camelCase). -/

namespace DdlPipeline

/-- Kinds of Python exceptions the embedded code can raise. -/
inductive PyErr where
  | indexError
  | valueError
  | nameError
  | attributeError
  | unboundLocalError
  | pyException
deriving DecidableEq

/-- Characters stripped by Python str.strip() with no arguments. -/
def isPyWs (c : Char) : Bool :=
  c = ' ' || c = '\t' || c = '\n' || c = '\r' || c = '\x0b' || c = '\x0c'

/-- Python str.strip(): drop whitespace from both ends. -/
def pyStrip (s : List Char) : List Char :=
  ((s.dropWhile isPyWs).reverse.dropWhile isPyWs).reverse

/-- Python str.strip(chars): drop characters of the given set from both ends. -/
def pyStripChars (s : List Char) (cs : List Char) : List Char :=
  ((s.dropWhile (cs.contains ·)).reverse.dropWhile (cs.contains ·)).reverse

/-- Python str.rstrip(chars): drop characters of the given set from the right end. -/
def pyRstripChars (s : List Char) (cs : List Char) : List Char :=
  (s.reverse.dropWhile (cs.contains ·)).reverse

/-- Python str.lower().  Python lower-cases the full Unicode range; the DDL
dialect is ASCII, which `Char.toLower` covers. -/
def pyLower (s : List Char) : List Char := s.map Char.toLower

/-- Propagation of a recursive find result one position to the right. -/
def pyFindStep (k : Int) : Int := if k = -1 then -1 else k + 1

/-- Python str.find: offset of the first occurrence of `pat` in `s`, or -1. -/
def pyFind (s pat : List Char) : Int :=
  if pat.isPrefixOf s then 0
  else
    match s with
    | [] => -1
    | _ :: t => pyFindStep (pyFind t pat)

/-- Python str.replace(old, new): replace non-overlapping occurrences left to
right.  Structural recursion on a fuel argument; fuel `s.length` suffices
because every step either consumes `pat.length` or one character. -/
def pyReplaceF (fuel : Nat) (s pat rep : List Char) : List Char :=
  match fuel, s with
  | 0, s => s
  | _ + 1, [] => []
  | f + 1, c :: t =>
    if pat ≠ [] ∧ pat.isPrefixOf (c :: t) then
      rep ++ pyReplaceF f ((c :: t).drop pat.length) pat rep
    else c :: pyReplaceF f t pat rep

def pyReplace (s pat rep : List Char) : List Char := pyReplaceF s.length s pat rep

/-- Python str.split(sep, 1): split at the first occurrence of `sep`; `none`
when `sep` does not occur. -/
def pySplitFirst (s sep : List Char) : Option (List Char × List Char) :=
  if sep.isPrefixOf s then some ([], s.drop sep.length)
  else
    match s with
    | [] => none
    | c :: t =>
      match pySplitFirst t sep with
      | none => none
      | some (a, b) => some (c :: a, b)

/-- Python str.split(sep) (full split), via fuel. -/
def pySplitAllF (fuel : Nat) (s sep : List Char) : List (List Char) :=
  match fuel with
  | 0 => [s]
  | f + 1 =>
    match pySplitFirst s sep with
    | none => [s]
    | some (a, b) => a :: pySplitAllF f b sep

def pySplitAll (s sep : List Char) : List (List Char) := pySplitAllF (s.length + 1) s sep

/-- Python slice s[a:b] with Int endpoints: negative indices count from the
end, out-of-range endpoints are clamped. -/
def pySlice (s : List Char) (a b : Int) : List Char :=
  let n := s.length
  let lo := if a < 0 then (Int.ofNat n + a).toNat else min a.toNat n
  let hi := if b < 0 then (Int.ofNat n + b).toNat else min b.toNat n
  (s.drop lo).take (hi - lo)

/-- Python dict lookup on an association list (keys are unique, so first match). -/
def dictGet (d : List (List Char × List Char)) (k : List Char) : Option (List Char) :=
  (d.find? (fun p => p.1 = k)).map Prod.snd

/-- Python dict insertion: replace the value at an existing key, else append. -/
def dictSet (d : List (List Char × List Char)) (k v : List Char) :
    List (List Char × List Char) :=
  match d with
  | [] => [(k, v)]
  | p :: t => if p.1 = k then (k, v) :: t else p :: dictSet t k v

/-- Equality of two Python dicts as unordered key/value maps.  This models
`len(DeepDiff(a, b, ignore_order=True)) == 0` on flat string dictionaries. -/
def dictEqB (a b : List (List Char × List Char)) : Bool :=
  a.all (fun p => dictGet b p.1 = some p.2) && b.all (fun p => dictGet a p.1 = some p.2)

def hexDigit (n : Nat) : Char := if n < 10 then Char.ofNat (48 + n) else Char.ofNat (87 + n)

/-- Escapes applied by json.dumps to a single character. -/
def jsonEscapeChar (c : Char) : List Char :=
  if c = '\x22' then ['\\', '\x22']
  else if c = '\\' then ['\\', '\\']
  else if c = '\n' then ['\\', 'n']
  else if c = '\r' then ['\\', 'r']
  else if c = '\t' then ['\\', 't']
  else if c = '\x08' then ['\\', 'b']
  else if c = '\x0c' then ['\\', 'f']
  else if c.toNat < 32 then ['\\', 'u', '0', '0', hexDigit (c.toNat / 16), hexDigit (c.toNat % 16)]
  else [c]

/-- Python json.dumps on a string: wrap in double quotes with escapes. -/
def jsonDumpsStr (s : List Char) : List Char :=
  '\x22' :: (s.map jsonEscapeChar).flatten ++ ['\x22']

def jsonSkipWs (s : List Char) : List Char :=
  s.dropWhile (fun c => c = ' ' || c = '\t' || c = '\n' || c = '\r')

def hexVal (c : Char) : Option Nat :=
  if '0' ≤ c ∧ c ≤ '9' then some (c.toNat - 48)
  else if 'a' ≤ c ∧ c ≤ 'f' then some (c.toNat - 87)
  else if 'A' ≤ c ∧ c ≤ 'F' then some (c.toNat - 55)
  else none

/-- Parse the remainder of a JSON string literal (after its opening quote):
returns the decoded content and the text after the closing quote. -/
def jsonStringF (fuel : Nat) (s : List Char) : Option (List Char × List Char) :=
  match fuel, s with
  | 0, _ => none
  | _, [] => none
  | f + 1, c :: t =>
    if c = '\x22' then some ([], t)
    else if c = '\\' then
      match t with
      | [] => none
      | e :: t2 =>
        let dec :=
          if e = '\x22' then some (['\x22'], t2)
          else if e = '\\' then some (['\\'], t2)
          else if e = '/' then some (['/'], t2)
          else if e = 'n' then some (['\n'], t2)
          else if e = 't' then some (['\t'], t2)
          else if e = 'r' then some (['\r'], t2)
          else if e = 'b' then some (['\x08'], t2)
          else if e = 'f' then some (['\x0c'], t2)
          else if e = 'u' then
            match t2 with
            | h1 :: h2 :: h3 :: h4 :: t3 =>
              match hexVal h1, hexVal h2, hexVal h3, hexVal h4 with
              | some a, some b, some c2, some d =>
                some ([Char.ofNat (((a * 16 + b) * 16 + c2) * 16 + d)], t3)
              | _, _, _, _ => none
            | _ => none
          else none
        match dec with
        | none => none
        | some (cs, rest) =>
          match jsonStringF f rest with
          | none => none
          | some (str, rest2) => some (cs ++ str, rest2)
    else
      match jsonStringF f t with
      | none => none
      | some (str, rest) => some (c :: str, rest)

/-- Parse the member list of a flat JSON object of string keys and string
values, accumulating into a dict.  `s` starts at the first key's quote. -/
def jsonPairsF : Nat → List Char → List (List Char × List Char) →
    Option (List (List Char × List Char))
  | 0, _, _ => none
  | f + 1, s, acc =>
    match jsonSkipWs s with
    | '\x22' :: t =>
      match jsonStringF (t.length + 1) t with
      | none => none
      | some (k, r1) =>
        match jsonSkipWs r1 with
        | ':' :: r2 =>
          match jsonSkipWs r2 with
          | '\x22' :: r3 =>
            match jsonStringF (r3.length + 1) r3 with
            | none => none
            | some (v, r4) =>
              match jsonSkipWs r4 with
              | ',' :: r5 => jsonPairsF f r5 (dictSet acc k v)
              | '\x7d' :: r5 =>
                if jsonSkipWs r5 = [] then some (dictSet acc k v) else none
              | _ => none
          | _ => none
        | _ => none
    | _ => none

/-- Python json.loads restricted to flat objects with string keys and string
values, which is the only shape the engine constructs.  Any other input is a
ValueError (a numeric value in a malformed DDL property list would parse in
Python; no claim depends on that corner). -/
def jsonLoadsFlat (s : List Char) : Except PyErr (List (List Char × List Char)) :=
  match jsonSkipWs s with
  | '\x7b' :: t =>
    match jsonSkipWs t with
    | '\x7d' :: r => if jsonSkipWs r = [] then .ok [] else .error .valueError
    | _ =>
      match jsonPairsF (t.length + 1) t [] with
      | some d => .ok d
      | none => .error .valueError
  | _ => .error .valueError

/-- Python str(int). -/
def intStr (i : Int) : List Char := (toString i).toList

/-- Number of opening parentheses in a string. -/
def opensCount (l : List Char) : Nat := l.countP (fun c => c = '(')

/-- Number of closing parentheses in a string. -/
def closesCount (l : List Char) : Nat := l.countP (fun c => c = ')')

/-- A string is balanced when no prefix closes more parentheses than it opens
and the totals agree. -/
def BalancedPar (l : List Char) : Prop :=
  (∀ q, q <+: l → closesCount q ≤ opensCount q) ∧ opensCount l = closesCount l

/-- Executable balance check carrying the current depth. -/
def balCheck : List Char → Nat → Bool
  | [], d => d = 0
  | c :: t, d =>
    if c = '(' then balCheck t (d + 1)
    else if c = ')' then (if d = 0 then false else balCheck t (d - 1))
    else balCheck t d

/-- The whitespace-collapsing loop shared (verbatim) by detect_table_changes
and have_columns_changed:  `while (two spaces) in text: text =
text.replace(two spaces, one).replace(space-comma, comma)`.  Fueled; fuel
`s.length` suffices because each iteration shortens the text. -/
def collapseSpacesF (fuel : Nat) (s : List Char) : List Char :=
  match fuel with
  | 0 => s
  | f + 1 =>
    if pyFind s "  ".toList ≠ -1 then
      collapseSpacesF f (pyReplace (pyReplace s "  ".toList " ".toList) " ,".toList ",".toList)
    else s

def collapseSpaces (s : List Char) : List Char := collapseSpacesF s.length s

/-- The strip_comments function: Python re.sub applied to the pattern
whitespace-run, two dashes, rest of line, optional newline, replaced by the
empty string.  The leftmost match starts at the beginning of the maximal
whitespace run immediately preceding the first occurrence of the two dashes;
re.sub continues scanning after the (empty) replacement. -/
def stripCommentsF (fuel : Nat) (s : List Char) : List Char :=
  match fuel with
  | 0 => s
  | f + 1 =>
    let k := pyFind s "--".toList
    if k = -1 then s
    else
      let kn := k.toNat
      let pre := ((s.take kn).reverse.dropWhile isPyWs).reverse
      let afterDashes := s.drop (kn + 2)
      let rest :=
        match afterDashes.dropWhile (fun c => c != '\n') with
        | '\n' :: t => t
        | t => t
      pre ++ stripCommentsF f rest

def stripComments (s : List Char) : List Char := stripCommentsF (s.length + 1) s

/-- The normalisation performed by detect_table_changes before parsing:
replace newlines by spaces, delete carriage-returns, backticks and
semicolons, replace tabs by spaces, delete one space before each closing
parenthesis, lower-case, then run the whitespace-collapsing loop. -/
def normalizeDdlText (s : List Char) : List Char :=
  collapseSpaces (pyLower (pyReplace (pyReplace (pyReplace (pyReplace (pyReplace (pyReplace s
    "\n".toList " ".toList) "\r".toList "".toList) "\x60".toList "".toList)
    ";".toList "".toList) "\t".toList " ".toList) " )".toList ")".toList))

/-- The text handed to change detection: prep_ddl_script strips comments, then
detect_table_changes normalises. -/
def normalizedDetectionText (raw : List Char) : List Char :=
  normalizeDdlText (stripComments raw)

/-- The constant NOT_FOUND. -/
def NOT_FOUND : Int := -1

def AVRO_STORAGE_FORMAT : List Char :=
  "org.apache.hadoop.hive.ql.io.avro.AvroContainerInputFormat".toList

def ORC_STORAGE_FORMAT : List Char :=
  "org.apache.hadoop.hive.ql.io.orc.OrcInputFormat".toList

def PARQUET_STORAGE_FORMAT : List Char :=
  "org.apache.hadoop.hive.ql.io.parquet.MapredParquetInputFormat".toList

def RCFILE_STORAGE_FORMAT : List Char :=
  "org.apache.hadoop.hive.ql.io.RCFileInputFormat".toList

def SEQUENCEFILE_STORAGE_FORMAT : List Char :=
  "org.apache.hadoop.mapred.SequenceFileInputFormat".toList

def TEXTFILE_STORAGE_FORMAT : List Char :=
  "org.apache.hadoop.mapred.TextInputFormat".toList

/-- The catalog ddl_clauses_list. -/
def ddlClausesList : List (List Char) :=
  [" comment \x27".toList, " partitioned by ".toList, " clustered by ".toList,
   " row format ".toList, " stored as ".toList, " location \x27s3:".toList,
   " tblproperties ".toList]

/-- The catalog ddl_row_format_subclauses_list. -/
def ddlRowFormatSubclausesList : List (List Char) :=
  [" fields terminated by \x27".toList, " escaped by \x27".toList,
   " collection items terminated by \x27".toList, " map keys terminated by \x27".toList,
   " lines terminated by \x27".toList, " null defined as \x27".toList,
   " serde \x27".toList, " with serdeproperties (".toList, " delimited ".toList]

/-- One entry of the clause index built by index_ddl_clauses: the stripped
clause marker and its offset (or NOT_FOUND). -/
structure ClauseIdx where
  clause : List Char
  index : Int
deriving DecidableEq

/-- Ordering used by Python sorted(key = Index). -/
def clauseLe (a b : ClauseIdx) : Prop := a.index ≤ b.index

instance : DecidableRel clauseLe := fun a b => inferInstanceAs (Decidable (a.index ≤ b.index))

instance : IsTotal ClauseIdx clauseLe := ⟨fun a b => Int.le_total a.index b.index⟩

instance : IsTrans ClauseIdx clauseLe := ⟨fun _ _ _ => Int.le_trans⟩

/-- Python sorted with key = Index is a stable ascending sort; insertion sort
with `clauseLe` is extensionally the same function (both stable, ascending). -/
def sortByIndex (l : List ClauseIdx) : List ClauseIdx := List.insertionSort clauseLe l

/-- The function index_ddl_clauses.  Each catalog entry is stripped and looked
up with str.find; the table COMMENT marker is only accepted at offset 0, any
other occurrence is recorded as NOT_FOUND.  (For the other markers the source
stores the find result when it is nonnegative and NOT_FOUND = -1 otherwise,
which is the find result in both cases.)  The list is then sorted by offset. -/
def clauseEntry (text cl : List Char) : ClauseIdx :=
  if pyStrip cl = "comment \x27".toList then
    if pyFind text (pyStrip cl) = 0 then ⟨pyStrip cl, pyFind text (pyStrip cl)⟩
    else ⟨pyStrip cl, NOT_FOUND⟩
  else ⟨pyStrip cl, pyFind text (pyStrip cl)⟩

def indexDdlClauses (text : List Char) (clausesList : List (List Char)) : List ClauseIdx :=
  sortByIndex (clausesList.map (clauseEntry text))

/-- The slicing loop of segmentize_ddl_by_clause: for consecutive entries of
the sorted index, a found entry contributes the slice up to the next entry's
offset, and the final entry contributes the slice up to the end of the text. -/
def segLoop (text : List Char) : List ClauseIdx → List (List Char)
  | a :: b :: rest =>
    (if a.index ≠ NOT_FOUND then [pyStrip (pySlice text a.index b.index)] else []) ++
      segLoop text (b :: rest)
  | [a] =>
    if a.index ≠ NOT_FOUND then [pyStrip (pySlice text a.index (Int.ofNat text.length))]
    else []
  | [] => []

/-- The function segmentize_ddl_by_clause.  With fewer than two index entries
the Python loop never binds its variable and the trailing access raises a
NameError; otherwise the loop and the final access produce the segments. -/
def segmentizeDdlByClause (text : List Char) (sorted : List ClauseIdx) :
    Except PyErr (List (List Char)) :=
  match sorted with
  | [] => .error .nameError
  | [_] => .error .nameError
  | l => .ok (segLoop text l)

/-- Specification helper: the offsets of the found clauses of a sorted index,
in list order. -/
def foundIndices (l : List ClauseIdx) : List Int :=
  (l.filter (fun e => e.index ≠ NOT_FOUND)).map (fun e => e.index)

/-- Specification helper: the stripped slices of a text between consecutive
offsets of a list, the last one running to the end of the text. -/
def consecutiveSlices (t : List Char) (ns : List Int) : List (List Char) :=
  (ns.zip (ns.tail ++ [(Int.ofNat t.length)])).map (fun p => pyStrip (pySlice t p.1 p.2))

/-- Result of the scanning loop in split_ddl_columns_segment. -/
inductive ScanOut where
  | scanErr : ScanOut
  | scanBroke : List (Nat × Nat) → Nat → ScanOut
  | scanDone : List Nat → List (Nat × Nat) → ScanOut
deriving DecidableEq

/-- The character loop of split_ddl_columns_segment.  The stack holds offsets
of unmatched opening parentheses (Python appends and pops at the list's end;
here the top is the head).  The dict records matched pairs in insertion order,
that is in order of the closes.  The loop breaks when the depth counter, which
always equals the stack size, returns to zero, and raises IndexError on a pop
from an empty stack. -/
def scanCols : List Char → Nat → List Nat → List (Nat × Nat) → ScanOut
  | [], _, st, d => .scanDone st d
  | c :: cs, i, st, d =>
    if c = '(' then scanCols cs (i + 1) (i :: st) d
    else if c = ')' then
      match st with
      | [] => .scanErr
      | k :: st2 =>
        if st2 = [] then .scanBroke (d ++ [(k, i)]) i
        else scanCols cs (i + 1) st2 (d ++ [(k, i)])
    else scanCols cs (i + 1) st d

/-- The function split_ddl_columns_segment.  After the scan: an unmatched
closing parenthesis is an IndexError; a nonempty stack is the unbalanced
exception; the last recorded pair bounds the columns list; with no recorded
pair the [-1] access on the empty dict raises IndexError. -/
def splitDdlColumnsSegment (text : List Char) : Except PyErr (List Char × List Char) :=
  match scanCols text 0 [] [] with
  | .scanErr => .error .indexError
  | .scanBroke d _ =>
    match d.getLast? with
    | none => .error .indexError
    | some (a, b) => .ok (pyStrip ((text.drop (a + 1)).take (b - (a + 1))), text.drop (b + 1))
  | .scanDone st d =>
    if st = [] then
      match d.getLast? with
      | none => .error .indexError
      | some (a, b) => .ok (pyStrip ((text.drop (a + 1)).take (b - (a + 1))), text.drop (b + 1))
    else .error .pyException

/-- One column of the Glue metadata (Name, Type, optional Comment). -/
structure MetaColumn where
  name : List Char
  colType : List Char
  comment : Option (List Char)
deriving DecidableEq

/-- The SerdeInfo part of the metadata StorageDescriptor. -/
structure SerdeInfo where
  serializationLibrary : List Char
  parameters : List (List Char × List Char)
deriving DecidableEq

/-- The metadata StorageDescriptor. -/
structure StorageDescriptor where
  columns : List MetaColumn
  bucketColumns : List (List Char)
  numberOfBuckets : Int
  serdeInfo : SerdeInfo
  inputFormat : List Char
  outputFormat : List Char
  location : List Char
deriving DecidableEq

/-- The table metadata returned by the Glue get_tables call, restricted to the
fields the change detector reads. -/
structure TableMetadata where
  storageDescriptor : StorageDescriptor
  partitionKeys : List MetaColumn
  parameters : List (List Char × List Char)
deriving DecidableEq

/-- Rendering of one metadata column inside have_columns_changed. -/
def renderMetaColumn (c : MetaColumn) : List Char :=
  match c.comment with
  | some cm =>
    " ".toList ++ c.name ++ " ".toList ++ c.colType ++ " comment \x27".toList ++
      pyReplace cm "\x27".toList "\\\x27".toList ++ "\x27".toList ++ ",".toList
  | none => " ".toList ++ c.name ++ " ".toList ++ c.colType ++ ",".toList

/-- The function have_columns_changed: render the metadata columns, drop the
trailing comma, strip, collapse spaces, and compare lower-cased against the
DDL columns segment. -/
def haveColumnsChanged (md : TableMetadata) (ddlColumns : List Char) : Bool :=
  let metaColumns := (md.storageDescriptor.columns.map renderMetaColumn).flatten
  let metaColumns := collapseSpaces (pyStrip metaColumns.dropLast)
  decide (ddlColumns ≠ pyLower metaColumns)

/-- The function has_table_comment_changed.  The log message in the branch
where only the DDL has a comment indexes split(space, 1)[1], so a spaceless
segment raises IndexError there; the both-present branch unpacks the split
into two names, raising ValueError when there is no space. -/
def hasTableCommentChanged (md : TableMetadata) (ddlSegments : List (List Char)) :
    Except PyErr Bool :=
  let ddlCommentSegment := ddlSegments.find? (fun seg => "comment".toList.isPrefixOf seg)
  let metadataComment := (dictGet md.parameters "comment".toList).map
    (fun v => pyLower (pyReplace v "\x27".toList "\\\x27".toList))
  match metadataComment, ddlCommentSegment with
  | none, none => .ok false
  | none, some seg =>
    match pySplitFirst seg " ".toList with
    | some _ => .ok true
    | none => .error .indexError
  | some _, none => .ok true
  | some mc, some seg =>
    match pySplitFirst seg " ".toList with
    | none => .error .valueError
    | some (_, v) => .ok (decide (mc ≠ pyStripChars v "\x27".toList))

/-- Rendering of one metadata partition key inside has_partitioning_changed. -/
def renderPartitionKey (c : MetaColumn) : List Char :=
  match c.comment with
  | some cm =>
    pyLower c.name ++ " ".toList ++ pyLower c.colType ++ " comment \x27".toList ++
      pyLower (pyReplace cm "\x27".toList "\\\x27".toList) ++ "\x27".toList
  | none => pyLower c.name ++ " ".toList ++ pyLower c.colType

/-- The function has_partitioning_changed. -/
def hasPartitioningChanged (md : TableMetadata) (ddlSegments : List (List Char)) :
    Except PyErr Bool :=
  let seg? := ddlSegments.find? (fun seg => "partitioned by".toList.isPrefixOf seg)
  if md.partitionKeys.length = 0 then
    match seg? with
    | none => .ok false
    | some _ => .ok true
  else
    match seg? with
    | none => .ok true
    | some seg =>
      match pySplitFirst seg "(".toList with
      | none => .error .valueError
      | some (_, v) =>
        let v := pyStrip v.dropLast
        let metadataPartition := List.intercalate ", ".toList (md.partitionKeys.map renderPartitionKey)
        .ok (decide (metadataPartition ≠ v))

/-- The function has_clustering_changed. -/
def hasClusteringChanged (md : TableMetadata) (ddlSegments : List (List Char)) :
    Except PyErr Bool :=
  let seg? := ddlSegments.find? (fun seg => "clustered by".toList.isPrefixOf seg)
  if md.storageDescriptor.bucketColumns.length = 0 then
    match seg? with
    | none => .ok false
    | some _ => .ok true
  else
    match seg? with
    | none => .ok true
    | some seg =>
      match pySplitFirst seg "(".toList with
      | none => .error .valueError
      | some (_, v) =>
        let v := pyStrip (pyReplace v ")".toList "".toList)
        let metadataCluster :=
          List.intercalate ", ".toList (md.storageDescriptor.bucketColumns.map pyLower) ++
            " into ".toList ++ intStr md.storageDescriptor.numberOfBuckets ++ " buckets".toList
        .ok (decide (metadataCluster ≠ v))

/-- The seven serde parameters read by get_meta_row_format_delimiters, each
wrapped by json.dumps when present.  The misspelt colelction.delim key is the
misspelling in the source. -/
structure MetaDelims where
  escapeDelim : Option (List Char)
  fieldDelim : Option (List Char)
  collectionDelim : Option (List Char)
  serializationFormat : Option (List Char)
  mapKeysDelim : Option (List Char)
  lineDelim : Option (List Char)
  nullFormat : Option (List Char)

def getMetaRowFormatDelimiters (md : TableMetadata) : MetaDelims :=
  let ps := md.storageDescriptor.serdeInfo.parameters
  ⟨(dictGet ps "escape.delim".toList).map jsonDumpsStr,
   (dictGet ps "field.delim".toList).map jsonDumpsStr,
   (dictGet ps "colelction.delim".toList).map jsonDumpsStr,
   (dictGet ps "serialization.format".toList).map jsonDumpsStr,
   (dictGet ps "mapkey.delim".toList).map jsonDumpsStr,
   (dictGet ps "line.delim".toList).map jsonDumpsStr,
   (dictGet ps "serialization.null.format".toList).map jsonDumpsStr⟩

/-- The function have_row_format_delimiters_changed.  The delimiter type is
the string tag passed by the callers; calling a string method on the None
delimiter would be an AttributeError in Python. -/
def haveRowFormatDelimitersChanged (md : TableMetadata)
    (ddlRowFormatDelimiter : Option (List Char))
    (ddlRowFormatDelimiterType : Option (List Char)) : Except PyErr Bool :=
  let lib := md.storageDescriptor.serdeInfo.serializationLibrary
  let d := getMetaRowFormatDelimiters md
  match ddlRowFormatDelimiterType with
  | none =>
    if d.escapeDelim.isSome || d.fieldDelim.isSome || d.collectionDelim.isSome ||
        d.mapKeysDelim.isSome || d.lineDelim.isSome || d.nullFormat.isSome then
      .ok true
    else if "org.apache.".toList.isPrefixOf lib then .ok false
    else .ok true
  | some tp =>
    if tp = "no properties".toList then
      .ok (decide (d.serializationFormat ≠ some "\x221\x22".toList))
    else if tp = "fields escaped".toList then
      match ddlRowFormatDelimiter with
      | none => .error .attributeError
      | some delim =>
        match pySplitAll delim " escaped by \x27".toList with
        | [s1, s2] =>
          let ddlFieldsChar :=
            pyRstripChars (pyReplace s1 "fields terminated by \x27".toList "".toList) "\x27".toList
          let ddlEscChar := pyRstripChars s2 "\x27".toList
          let ddlJsonEsc := "\x22".toList ++ ddlEscChar ++ "\x22".toList
          let ddlJsonFields := "\x22".toList ++ ddlFieldsChar ++ "\x22".toList
          if d.fieldDelim = some ddlJsonFields then
            .ok (decide (d.escapeDelim ≠ some ddlJsonEsc))
          else .ok true
        | _ => .error .valueError
    else if tp = "fields".toList then
      match ddlRowFormatDelimiter with
      | none => .error .attributeError
      | some delim =>
        let ddlFieldsChar :=
          pyRstripChars (pyReplace delim "fields terminated by \x27".toList "".toList) "\x27".toList
        let ddlJsonFields := "\x22".toList ++ ddlFieldsChar ++ "\x22".toList
        if d.serializationFormat = some "\x221\x22".toList ∧ ddlJsonFields = "\x22|\x22".toList then
          .ok false
        else if d.fieldDelim = some ddlJsonFields then .ok false
        else .ok true
    else if tp = "collection".toList then
      match ddlRowFormatDelimiter with
      | none => .error .attributeError
      | some delim =>
        let c :=
          pyRstripChars (pyReplace delim "collection items terminated by \x27".toList "".toList)
            "\x27".toList
        .ok (decide (d.collectionDelim ≠ some ("\x22".toList ++ c ++ "\x22".toList)))
    else if tp = "map keys".toList then
      match ddlRowFormatDelimiter with
      | none => .error .attributeError
      | some delim =>
        let c :=
          pyRstripChars (pyReplace delim "map keys terminated by \x27".toList "".toList)
            "\x27".toList
        .ok (decide (d.mapKeysDelim ≠ some ("\x22".toList ++ c ++ "\x22".toList)))
    else if tp = "lines".toList then
      match ddlRowFormatDelimiter with
      | none => .error .attributeError
      | some delim =>
        let c :=
          pyRstripChars (pyReplace delim "lines terminated by \x27".toList "".toList)
            "\x27".toList
        .ok (decide (d.lineDelim ≠ some ("\x22".toList ++ c ++ "\x22".toList)))
    else if tp = "null defined".toList then
      match ddlRowFormatDelimiter with
      | none => .error .attributeError
      | some delim =>
        let c :=
          pyRstripChars (pyReplace delim "null defined as \x27".toList "".toList)
            "\x27".toList
        .ok (decide (d.nullFormat ≠ some ("\x22".toList ++ c ++ "\x22".toList)))
    else .error .pyException

/-- The function have_serdeproperties_changed.  The DeepDiff call on two flat
string dictionaries reports no difference exactly when they are equal as
unordered maps. -/
def haveSerdepropertiesChanged (ddlSerdeProperties : List Char) (md : TableMetadata) :
    Except PyErr Bool :=
  let metaProps := md.storageDescriptor.serdeInfo.parameters
  if metaProps.length = 0 then .ok true
  else
    let metaProps := metaProps.map (fun p => (pyLower p.1, pyLower p.2))
    let core :=
      pyStrip (pyReplace (pyReplace ddlSerdeProperties "=".toList ": ".toList)
        "\x27".toList "\x22".toList)
    let jstr :=
      if (dictGet metaProps "serialization.format".toList).isSome then
        if pyFind ddlSerdeProperties "serialization.format".toList ≠ -1 then
          "\x7b".toList ++ core ++ "\x7d".toList
        else
          "\x7b".toList ++ core ++ ", \x22serialization.format\x22: \x221\x22".toList ++
            "\x7d".toList
      else "\x7b".toList ++ core ++ "\x7d".toList
    match jsonLoadsFlat jstr with
    | .error e => .error e
    | .ok ddlProps => .ok (!(dictEqB ddlProps metaProps))

/-- The three row-format variants (string constants in the source). -/
inductive RowFormatType where
  | serdeFmt
  | serdeWithPropertiesFmt
  | delimitedFmt
deriving DecidableEq

/-- The scanning loop of determine_row_format_type over the sorted sub-clause
index: a found WITH-SERDEPROPERTIES or DELIMITED entry is terminal, a found
SERDE entry is recorded tentatively and the scan continues. -/
def determineLoop : List ClauseIdx → Option RowFormatType → Option RowFormatType
  | [], acc => acc
  | e :: t, acc =>
    if e.clause = "with serdeproperties (".toList ∧ e.index ≠ NOT_FOUND then
      some .serdeWithPropertiesFmt
    else if e.clause = "serde \x27".toList ∧ e.index ≠ NOT_FOUND then
      determineLoop t (some .serdeFmt)
    else if e.clause = "delimited".toList ∧ e.index ≠ NOT_FOUND then
      some .delimitedFmt
    else determineLoop t acc

/-- The function determine_row_format_type: classify the ROW FORMAT variant
from the sorted sub-clause index, raising when no variant is found. -/
def determineRowFormatType (sorted : List ClauseIdx) : Except PyErr RowFormatType :=
  match determineLoop sorted none with
  | none => .error .pyException
  | some t => .ok t

/-- The function has_row_format_serde_changed.  The positional [0] and [1]
accesses and [1] of split results are IndexErrors when absent. -/
def hasRowFormatSerdeChanged (md : TableMetadata) (ddlSerdeInfo : Option (List (List Char)))
    (ddlRowFormatType : Option RowFormatType) : Except PyErr Bool :=
  let lib := md.storageDescriptor.serdeInfo.serializationLibrary
  match ddlSerdeInfo with
  | none =>
    if "org.apache.".toList.isPrefixOf lib then .ok false else .ok true
  | some info =>
    match ddlRowFormatType with
    | some .serdeWithPropertiesFmt =>
      match info[0]? with
      | none => .error .indexError
      | some seg0 =>
        match (pySplitAll seg0 " ".toList)[1]? with
        | none => .error .indexError
        | some w =>
          let ddlSerdeLib := pyStripChars w "\x27".toList
          match info[1]? with
          | none => .error .indexError
          | some seg1 =>
            match (pySplitAll seg1 " (".toList)[1]? with
            | none => .error .indexError
            | some w2 =>
              let ddlSerdeProps := pyStripChars w2 ")".toList
              match haveSerdepropertiesChanged ddlSerdeProps md with
              | .error e => .error e
              | .ok true => .ok true
              | .ok false => .ok (decide (ddlSerdeLib ≠ pyLower lib))
    | some .serdeFmt =>
      match info[0]? with
      | none => .error .indexError
      | some seg0 =>
        match (pySplitAll seg0 " ".toList)[1]? with
        | none => .error .indexError
        | some w => .ok (decide (pyStripChars w "\x27".toList ≠ pyLower lib))
    | _ => .error .pyException

/-- The function check_row_format_delimited_properties.  The six lookups use
the sub-clause markers with quotes removed and whitespace stripped, as
substring tests; the verdicts of the applicable delimiter checks are OR-ed. -/
def checkRowFormatDelimitedProperties (ddlRowFormatDelimited : Option (List (List Char)))
    (md : TableMetadata) : Except PyErr Bool := do
  match ddlRowFormatDelimited with
  | none => haveRowFormatDelimitersChanged md none none
  | some segs =>
    let fieldsT := segs.find? (fun s => pyFind s "fields terminated by".toList ≠ -1)
    let escapedBy := segs.find? (fun s => pyFind s "escaped by".toList ≠ -1)
    let collectionT := segs.find? (fun s => pyFind s "collection items terminated by".toList ≠ -1)
    let mapKeysT := segs.find? (fun s => pyFind s "map keys terminated by".toList ≠ -1)
    let linesT := segs.find? (fun s => pyFind s "lines terminated by".toList ≠ -1)
    let nullDef := segs.find? (fun s => pyFind s "null defined as".toList ≠ -1)
    let mut changed := false
    if fieldsT = none ∧ escapedBy = none ∧ collectionT = none ∧ mapKeysT = none ∧
        linesT = none ∧ nullDef = none then
      if (← haveRowFormatDelimitersChanged md none (some "no properties".toList)) then
        changed := true
    match fieldsT with
    | some ft =>
      match escapedBy with
      | some eb =>
        if (← haveRowFormatDelimitersChanged md (some (ft ++ " ".toList ++ eb))
            (some "fields escaped".toList)) then
          changed := true
      | none =>
        if (← haveRowFormatDelimitersChanged md (some ft) (some "fields".toList)) then
          changed := true
    | none => pure ()
    match collectionT with
    | some ct =>
      if (← haveRowFormatDelimitersChanged md (some ct) (some "collection".toList)) then
        changed := true
    | none => pure ()
    match mapKeysT with
    | some mk =>
      if (← haveRowFormatDelimitersChanged md (some mk) (some "map keys".toList)) then
        changed := true
    | none => pure ()
    match linesT with
    | some lt =>
      if (← haveRowFormatDelimitersChanged md (some lt) (some "lines".toList)) then
        changed := true
    | none => pure ()
    match nullDef with
    | some nd =>
      if (← haveRowFormatDelimitersChanged md (some nd) (some "null defined".toList)) then
        changed := true
    | none => pure ()
    return changed

/-- The function has_row_format_changed. -/
def hasRowFormatChanged (md : TableMetadata) (ddlSegments : List (List Char)) :
    Except PyErr Bool :=
  match ddlSegments.find? (fun seg => "row format ".toList.isPrefixOf seg) with
  | none =>
    match hasRowFormatSerdeChanged md none none with
    | .error e => .error e
    | .ok true => .ok true
    | .ok false => haveRowFormatDelimitersChanged md none none
  | some seg =>
    let sortedSub := indexDdlClauses seg ddlRowFormatSubclausesList
    match segmentizeDdlByClause seg sortedSub with
    | .error e => .error e
    | .ok subSegs =>
      match determineRowFormatType sortedSub with
      | .error e => .error e
      | .ok t =>
        if t = .serdeFmt ∨ t = .serdeWithPropertiesFmt then
          hasRowFormatSerdeChanged md (some subSegs) (some t)
        else
          checkRowFormatDelimitedProperties (some subSegs) md

/-- The function has_file_format_changed.  In the explicit INPUTFORMAT branch
without an outputformat token, only the inputformat local is assigned; when
the input formats then match, the read of the never-assigned outputformat
local raises UnboundLocalError. -/
def hasFileFormatChanged (md : TableMetadata) (ddlSegments : List (List Char)) :
    Except PyErr Bool :=
  let seg? := ddlSegments.find? (fun seg => "stored as".toList.isPrefixOf seg)
  let metaIn := pyLower md.storageDescriptor.inputFormat
  let metaOut := pyLower md.storageDescriptor.outputFormat
  match seg? with
  | some seg =>
    let fmt := pyReplace seg "stored as ".toList "".toList
    if fmt = "textfile".toList then .ok (decide (metaIn ≠ pyLower TEXTFILE_STORAGE_FORMAT))
    else if fmt = "parquet".toList then .ok (decide (metaIn ≠ pyLower PARQUET_STORAGE_FORMAT))
    else if fmt = "sequencefile".toList then
      .ok (decide (metaIn ≠ pyLower SEQUENCEFILE_STORAGE_FORMAT))
    else if fmt = "rcfile".toList then .ok (decide (metaIn ≠ pyLower RCFILE_STORAGE_FORMAT))
    else if fmt = "orc".toList then .ok (decide (metaIn ≠ pyLower ORC_STORAGE_FORMAT))
    else if fmt = "avro".toList then .ok (decide (metaIn ≠ pyLower AVRO_STORAGE_FORMAT))
    else if "inputformat".toList.isPrefixOf fmt then
      let parts : Except PyErr (List Char × Option (List Char)) :=
        if pyFind fmt "outputformat".toList ≥ 0 then
          match pySplitAll fmt " ".toList with
          | [_, v1, _, v3] =>
            .ok (pyStripChars v1 "\x27".toList, some (pyStripChars v3 "\x27".toList))
          | _ => .error .valueError
        else
          match pySplitAll fmt " ".toList with
          | [_, v1] => .ok (pyStripChars v1 "\x27".toList, none)
          | _ => .error .valueError
      match parts with
      | .error e => .error e
      | .ok (inV, outV?) =>
        if inV = metaIn then
          match outV? with
          | some outV => .ok (decide (outV ≠ metaOut))
          | none => .error .unboundLocalError
        else .ok true
    else .error .pyException
  | none => .ok (decide (metaIn ≠ pyLower TEXTFILE_STORAGE_FORMAT))

/-- The allow-list test applied to the lowered metadata property keys. -/
def tblpropertiesAllowKeyMeta (k : List Char) : Bool :=
  k = "classification".toList || k = "has_encrypted_data".toList ||
  k = "orc.compress".toList || k = "parquet.compress".toList ||
  k = "write.compression".toList || "projection.".toList.isPrefixOf k ||
  k = "skip.header.line.count".toList || k = "storage.location.template".toList

/-- The allow-list test applied to the DDL property keys; the source mixes
raw-key and lowered-key comparisons here, reproduced exactly. -/
def tblpropertiesAllowKeyDdl (k : List Char) : Bool :=
  k = "classification".toList || pyLower k = "has_encrypted_data".toList ||
  k = "orc.compress".toList || pyLower k = "parquet.compress".toList ||
  k = "write.compression".toList || "projection.".toList.isPrefixOf k ||
  k = "skip.header.line.count".toList || pyLower k = "storage.location.template".toList

/-- The function have_tblproperties_changed. -/
def haveTblpropertiesChanged (md : TableMetadata) (ddlSegments : List (List Char)) :
    Except PyErr Bool :=
  let seg? := ddlSegments.find? (fun seg => "tblproperties".toList.isPrefixOf seg)
  let metaProps := (md.parameters.filter (fun p => tblpropertiesAllowKeyMeta (pyLower p.1))).map
    (fun p => (pyLower p.1, pyLower p.2))
  match seg? with
  | some seg =>
    match (pySplitAll seg " (".toList)[1]? with
    | none => .error .indexError
    | some w =>
      let ddlStr := pyStrip (pyStripChars w ")".toList)
      let jstr := "\x7b".toList ++
        pyStrip (pyReplace (pyReplace ddlStr "=".toList ": ".toList) "\x27".toList "\x22".toList) ++
        "\x7d".toList
      match jsonLoadsFlat jstr with
      | .error e => .error e
      | .ok props =>
        let ddlProps := props.filter (fun p => tblpropertiesAllowKeyDdl p.1)
        if ddlProps.length = 0 then .ok (decide (metaProps.length ≠ 0))
        else if metaProps.length = 0 then .ok true
        else .ok (!(dictEqB ddlProps metaProps))
  | none => .ok (decide (metaProps.length ≠ 0))

/-- The function has_table_location_changed: a missing location segment is a
raised exception, otherwise the single-quote-stripped value is compared with
the lowered metadata location. -/
def hasTableLocationChanged (md : TableMetadata) (ddlSegments : List (List Char)) :
    Except PyErr Bool :=
  match ddlSegments.find? (fun seg => "location".toList.isPrefixOf seg) with
  | some seg =>
    match pySplitFirst seg " ".toList with
    | none => .error .valueError
    | some (_, v) =>
      .ok (decide (pyLower md.storageDescriptor.location ≠ pyStripChars v "\x27".toList))
  | none => .error .pyException

/-- Ordered short-circuit evaluation of a list of comparator results: the
first error or first detected change decides, and false needs all of them. -/
def firstChange : List (Except PyErr Bool) → Except PyErr Bool
  | [] => .ok false
  | r :: rs =>
    match r with
    | .error e => .error e
    | .ok true => .ok true
    | .ok false => firstChange rs

/-- The function has_table_structure_changed: split off the columns segment,
index the remaining clauses, then run the eight comparators in source order
with an early return on the first detected change. -/
def hasTableStructureChanged (ddlText : List Char) (md : TableMetadata) : Except PyErr Bool :=
  match splitDdlColumnsSegment ddlText with
  | .error e => .error e
  | .ok (ddlColumnsSegment, rest) =>
    let ddlOtherSegments := pyStrip rest
    let ddlClauseListSorted := indexDdlClauses ddlOtherSegments ddlClausesList
    if haveColumnsChanged md ddlColumnsSegment then .ok true
    else
      match segmentizeDdlByClause ddlOtherSegments ddlClauseListSorted with
      | .error e => .error e
      | .ok ddlSegments =>
        match hasTableCommentChanged md ddlSegments with
        | .error e => .error e
        | .ok true => .ok true
        | .ok false =>
          match hasPartitioningChanged md ddlSegments with
          | .error e => .error e
          | .ok true => .ok true
          | .ok false =>
            match hasClusteringChanged md ddlSegments with
            | .error e => .error e
            | .ok true => .ok true
            | .ok false =>
              match hasRowFormatChanged md ddlSegments with
              | .error e => .error e
              | .ok true => .ok true
              | .ok false =>
                match hasFileFormatChanged md ddlSegments with
                | .error e => .error e
                | .ok true => .ok true
                | .ok false =>
                  match hasTableLocationChanged md ddlSegments with
                  | .error e => .error e
                  | .ok true => .ok true
                  | .ok false =>
                    match haveTblpropertiesChanged md ddlSegments with
                    | .error e => .error e
                    | .ok true => .ok true
                    | .ok false => .ok false

/- Supporting lemmas about the Python string primitives. -/

lemma toLower_cases (u : Char) :
    (¬(65 ≤ u.toNat ∧ u.toNat ≤ 90) ∧ u.toLower = u) ∨
      (65 ≤ u.toNat ∧ u.toNat ≤ 90 ∧ (u.toLower).toNat = u.toNat + 32) := by
  show (¬_ ∧ (if u.toNat ≥ 65 ∧ u.toNat ≤ 90 then Char.ofNat (u.toNat + 32) else u) = u) ∨ _
  by_cases h : u.toNat ≥ 65 ∧ u.toNat ≤ 90
  · right
    refine ⟨h.1, h.2, ?_⟩
    show (if u.toNat ≥ 65 ∧ u.toNat ≤ 90 then Char.ofNat (u.toNat + 32) else u).toNat = _
    rw [if_pos h]
    have hv : (u.toNat + 32).isValidChar := Or.inl (by omega)
    simp only [Char.ofNat]
    rw [dif_pos hv]
    rfl
  · left
    exact ⟨h, by rw [if_neg h]⟩

lemma isUpper_iff (c : Char) : c.isUpper = true ↔ 65 ≤ c.toNat ∧ c.toNat ≤ 90 := by
  simp only [Char.isUpper, Bool.and_eq_true, decide_eq_true_eq, ge_iff_le]
  exact ⟨fun h => ⟨h.1, h.2⟩, fun h => ⟨h.1, h.2⟩⟩

lemma toLower_not_upper (u : Char) : (u.toLower).isUpper = false := by
  rcases toLower_cases u with ⟨hc, h⟩ | ⟨h1, h2, h3⟩
  · rw [h]
    rw [Bool.eq_false_iff]
    intro hu
    exact hc ((isUpper_iff u).mp hu)
  · rw [Bool.eq_false_iff]
    intro hu
    rcases (isUpper_iff _).mp hu with ⟨a, b⟩
    omega

lemma toLower_fix {u c : Char} (hr : ¬(97 ≤ c.toNat ∧ c.toNat ≤ 122)) (h : u.toLower = c) :
    u = c := by
  rcases toLower_cases u with ⟨_, h2⟩ | ⟨_, h2, h3⟩
  · rw [← h2, h]
  · exfalso
    apply hr
    rw [← h]
    omega

lemma not_mem_pyLower {c : Char} (hr : ¬(97 ≤ c.toNat ∧ c.toNat ≤ 122)) {s : List Char}
    (h : c ∉ s) : c ∉ pyLower s := by
  intro hm
  rcases List.mem_map.mp hm with ⟨u, hu, he⟩
  exact h (toLower_fix hr he ▸ hu)

lemma pyLower_no_upper {s : List Char} : ∀ c ∈ pyLower s, c.isUpper = false := by
  intro c hc
  rcases List.mem_map.mp hc with ⟨u, _, he⟩
  exact he ▸ toLower_not_upper u

lemma mem_pyReplaceF {x : Char} :
    ∀ {f : Nat} {s pat rep : List Char}, x ∈ pyReplaceF f s pat rep → x ∈ s ∨ x ∈ rep := by
  intro f
  induction f with
  | zero =>
    intro s pat rep h
    simp only [pyReplaceF] at h
    exact Or.inl h
  | succ f ih =>
    intro s pat rep h
    cases s with
    | nil => simp [pyReplaceF] at h
    | cons c t =>
      simp only [pyReplaceF] at h
      by_cases hp : pat ≠ [] ∧ pat.isPrefixOf (c :: t) = true
      · rw [if_pos hp] at h
        rcases List.mem_append.mp h with h1 | h2
        · exact Or.inr h1
        · rcases ih h2 with h3 | h4
          · exact Or.inl (List.mem_of_mem_drop h3)
          · exact Or.inr h4
      · rw [if_neg hp] at h
        rcases List.mem_cons.mp h with h1 | h2
        · exact Or.inl (h1 ▸ List.mem_cons_self c t)
        · rcases ih h2 with h3 | h4
          · exact Or.inl (List.mem_cons_of_mem c h3)
          · exact Or.inr h4

lemma not_mem_pyReplace {x : Char} {s pat rep : List Char} (h1 : x ∉ s) (h2 : x ∉ rep) :
    x ∉ pyReplace s pat rep := by
  intro hm
  exact (mem_pyReplaceF hm).elim h1 h2

lemma not_mem_pyReplaceF_single {a : Char} {rep : List Char} (hr : a ∉ rep) :
    ∀ {f : Nat} {s : List Char}, s.length ≤ f → a ∉ pyReplaceF f s [a] rep := by
  intro f
  induction f with
  | zero =>
    intro s hs
    rw [List.length_eq_zero.mp (Nat.le_zero.mp hs)]
    simp [pyReplaceF]
  | succ f ih =>
    intro s hs
    cases s with
    | nil => simp [pyReplaceF]
    | cons c t =>
      simp only [pyReplaceF]
      by_cases hc : c = a
      · subst hc
        rw [if_pos]
        · intro hm
          rcases List.mem_append.mp hm with h1 | h2
          · exact hr h1
          · have h2a : c ∈ pyReplaceF f t [c] rep := by
              simpa using h2
            exact ih (Nat.le_of_succ_le_succ hs) h2a
        · refine ⟨by simp, ?_⟩
          rw [List.isPrefixOf_iff_prefix]
          exact ⟨t, rfl⟩
      · rw [if_neg]
        · intro hm
          rcases List.mem_cons.mp hm with h1 | h2
          · exact hc h1.symm
          · exact ih (Nat.le_of_succ_le_succ hs) h2
        · intro hh
          rw [List.isPrefixOf_iff_prefix] at hh
          rcases hh.2 with ⟨t2, he⟩
          simp only [List.cons_append] at he
          exact hc (List.cons.injEq .. ▸ he).1.symm

lemma not_mem_pyReplace_single {a : Char} {rep s : List Char} (hr : a ∉ rep) :
    a ∉ pyReplace s [a] rep :=
  not_mem_pyReplaceF_single hr (Nat.le_refl _)

lemma length_pyReplaceF_le {pat rep : List Char} (h : rep.length ≤ pat.length) :
    ∀ {f : Nat} {s : List Char}, (pyReplaceF f s pat rep).length ≤ s.length := by
  intro f
  induction f with
  | zero => intro s; simp [pyReplaceF]
  | succ f ih =>
    intro s
    cases s with
    | nil => simp [pyReplaceF]
    | cons c t =>
      simp only [pyReplaceF]
      by_cases hp : pat ≠ [] ∧ pat.isPrefixOf (c :: t) = true
      · rw [if_pos hp]
        have hple : pat.length ≤ (c :: t).length :=
          (List.isPrefixOf_iff_prefix.mp hp.2).length_le
        have hd : (List.drop pat.length (c :: t)).length = (c :: t).length - pat.length :=
          List.length_drop _ _
        have := @ih (List.drop pat.length (c :: t))
        rw [List.length_append]
        omega
      · rw [if_neg hp]
        simp only [List.length_cons]
        exact Nat.succ_le_succ ih

lemma length_pyReplaceF_lt {pat rep : List Char} (hlt : rep.length < pat.length) :
    ∀ {f : Nat} {s : List Char}, pat <:+: s → s.length ≤ f →
      (pyReplaceF f s pat rep).length < s.length := by
  intro f
  induction f with
  | zero =>
    intro s hinf hs
    rw [List.length_eq_zero.mp (Nat.le_zero.mp hs)] at hinf
    rw [List.infix_nil] at hinf
    subst hinf
    simp at hlt
  | succ f ih =>
    intro s hinf hs
    cases s with
    | nil =>
      rw [List.infix_nil] at hinf
      subst hinf
      simp at hlt
    | cons c t =>
      simp only [pyReplaceF]
      by_cases hp : pat ≠ [] ∧ pat.isPrefixOf (c :: t) = true
      · rw [if_pos hp]
        have hple : pat.length ≤ (c :: t).length :=
          (List.isPrefixOf_iff_prefix.mp hp.2).length_le
        have hd : (List.drop pat.length (c :: t)).length = (c :: t).length - pat.length :=
          List.length_drop _ _
        have h2 := @length_pyReplaceF_le pat rep (Nat.le_of_lt hlt) f (List.drop pat.length (c :: t))
        rw [List.length_append]
        omega
      · rw [if_neg hp]
        have hpne : pat ≠ [] := by
          intro he
          subst he
          simp at hlt
        have hnp : ¬ pat <+: (c :: t) := by
          intro hpre
          exact hp ⟨hpne, List.isPrefixOf_iff_prefix.mpr hpre⟩
        have hit : pat <:+: t := by
          rcases List.infix_cons_iff.mp hinf with h1 | h2
          · exact absurd h1 hnp
          · exact h2
        simp only [List.length_cons]
        exact Nat.succ_lt_succ (ih hit (Nat.le_of_succ_le_succ hs))

lemma neg_one_le_pyFind (s pat : List Char) : -1 ≤ pyFind s pat := by
  induction s with
  | nil =>
    simp only [pyFind]
    split <;> omega
  | cons c t ih =>
    simp only [pyFind, pyFindStep]
    split
    · omega
    · split <;> omega

lemma pyFind_eq_neg_one_iff (s pat : List Char) : pyFind s pat = -1 ↔ ¬ pat <:+: s := by
  induction s with
  | nil =>
    simp only [pyFind, List.infix_nil]
    by_cases hp : pat.isPrefixOf ([] : List Char) = true
    · rw [if_pos hp]
      rw [List.isPrefixOf_iff_prefix] at hp
      have : pat = [] := List.prefix_nil.mp hp
      subst this
      simp
    · rw [if_neg hp]
      rw [List.isPrefixOf_iff_prefix] at hp
      have : pat ≠ [] := by
        intro he
        subst he
        exact hp (List.nil_prefix)
      simp [this]
  | cons c t ih =>
    simp only [pyFind]
    by_cases hp : pat.isPrefixOf (c :: t) = true
    · rw [if_pos hp]
      rw [List.isPrefixOf_iff_prefix] at hp
      have : pat <:+: c :: t := hp.isInfix
      constructor
      · intro h
        omega
      · intro h
        exact absurd this h
    · rw [if_neg hp]
      rw [List.isPrefixOf_iff_prefix] at hp
      simp only [pyFindStep]
      by_cases hk : pyFind t pat = -1
      · rw [if_pos hk]
        constructor
        · intro _
          intro hinf
          rcases List.infix_cons_iff.mp hinf with h1 | h2
          · exact hp h1
          · exact (ih.mp hk) h2
        · intro _
          rfl
      · rw [if_neg hk]
        have hge := neg_one_le_pyFind t pat
        constructor
        · intro h
          omega
        · intro h
          exfalso
          apply h
          have : pat <:+: t := by
            by_contra hnot
            exact hk (ih.mpr hnot)
          exact List.infix_cons_iff.mpr (Or.inr this)

lemma not_infix_collapseSpacesF :
    ∀ {f : Nat} {s : List Char}, s.length ≤ f → ¬ ("  ".toList <:+: collapseSpacesF f s) := by
  intro f
  induction f with
  | zero =>
    intro s hs
    rw [List.length_eq_zero.mp (Nat.le_zero.mp hs)]
    simp only [collapseSpacesF]
    rw [List.infix_nil]
    simp
  | succ f ih =>
    intro s hs
    simp only [collapseSpacesF]
    by_cases hc : pyFind s "  ".toList ≠ -1
    · rw [if_pos hc]
      apply ih
      have hinf : "  ".toList <:+: s := by
        by_contra hno
        exact hc ((pyFind_eq_neg_one_iff s _).mpr hno)
      have h1 : (pyReplace s "  ".toList " ".toList).length < s.length := by
        apply length_pyReplaceF_lt (by decide) hinf (Nat.le_refl _)
      have h2 : (pyReplace (pyReplace s "  ".toList " ".toList) " ,".toList ",".toList).length ≤
          (pyReplace s "  ".toList " ".toList).length :=
        length_pyReplaceF_le (by decide)
      omega
    · rw [if_neg hc]
      push_neg at hc
      exact (pyFind_eq_neg_one_iff s _).mp hc

lemma not_infix_collapseSpaces (s : List Char) : ¬ ("  ".toList <:+: collapseSpaces s) :=
  not_infix_collapseSpacesF (Nat.le_refl _)

lemma mem_collapseSpacesF {x : Char} :
    ∀ {f : Nat} {s : List Char}, x ∈ collapseSpacesF f s → x ∈ s ∨ x = ' ' ∨ x = ',' := by
  intro f
  induction f with
  | zero =>
    intro s h
    simp only [collapseSpacesF] at h
    exact Or.inl h
  | succ f ih =>
    intro s h
    simp only [collapseSpacesF] at h
    by_cases hc : pyFind s "  ".toList ≠ -1
    · rw [if_pos hc] at h
      rcases ih h with h1 | h2
      · rcases mem_pyReplaceF h1 with h3 | h4
        · rcases mem_pyReplaceF h3 with h5 | h6
          · exact Or.inl h5
          · right
            left
            simpa using h6
        · right
          right
          simpa using h4
      · exact Or.inr h2
    · rw [if_neg hc] at h
      exact Or.inl h

lemma mem_collapseSpaces {x : Char} {s : List Char} (h : x ∈ collapseSpaces s) :
    x ∈ s ∨ x = ' ' ∨ x = ',' :=
  mem_collapseSpacesF h

lemma not_mem_tail_stages {b : Char} (hb1 : ¬(97 ≤ b.toNat ∧ b.toNat ≤ 122)) (hbsp : b ≠ ' ')
    (hbcm : b ≠ ',') {u : List Char} (hu : b ∉ u) : b ∉ collapseSpaces (pyLower u) := by
  intro hm
  rcases mem_collapseSpaces hm with h | h | h
  · exact not_mem_pyLower hb1 hu h
  · exact hbsp h
  · exact hbcm h

lemma normalize_shape (s : List Char) :
    '\n' ∉ normalizeDdlText s ∧ '\r' ∉ normalizeDdlText s ∧ '\x60' ∉ normalizeDdlText s ∧
    ';' ∉ normalizeDdlText s ∧ '\t' ∉ normalizeDdlText s ∧
    ¬ ("  ".toList <:+: normalizeDdlText s) ∧
    ∀ c ∈ normalizeDdlText s, c.isUpper = false := by
  unfold normalizeDdlText
  set r1 := pyReplace s "\n".toList " ".toList with hr1
  set r2 := pyReplace r1 "\r".toList "".toList with hr2
  set r3 := pyReplace r2 "\x60".toList "".toList with hr3
  set r4 := pyReplace r3 ";".toList "".toList with hr4
  set r5 := pyReplace r4 "\t".toList " ".toList with hr5
  set r6 := pyReplace r5 " )".toList ")".toList with hr6
  have hn1 : '\n' ∉ r1 := by
    rw [hr1]
    exact not_mem_pyReplace_single (by decide)
  have hn6 : '\n' ∉ r6 :=
    not_mem_pyReplace (not_mem_pyReplace (not_mem_pyReplace (not_mem_pyReplace
      (not_mem_pyReplace hn1 (by decide)) (by decide)) (by decide)) (by decide)) (by decide)
  have hc2 : '\r' ∉ r2 := by
    rw [hr2]
    exact not_mem_pyReplace_single (by decide)
  have hc6 : '\r' ∉ r6 :=
    not_mem_pyReplace (not_mem_pyReplace (not_mem_pyReplace (not_mem_pyReplace hc2 (by decide))
      (by decide)) (by decide)) (by decide)
  have hb3 : '\x60' ∉ r3 := by
    rw [hr3]
    exact not_mem_pyReplace_single (by decide)
  have hb6 : '\x60' ∉ r6 :=
    not_mem_pyReplace (not_mem_pyReplace (not_mem_pyReplace hb3 (by decide)) (by decide))
      (by decide)
  have hs4 : ';' ∉ r4 := by
    rw [hr4]
    exact not_mem_pyReplace_single (by decide)
  have hs6 : ';' ∉ r6 :=
    not_mem_pyReplace (not_mem_pyReplace hs4 (by decide)) (by decide)
  have ht5 : '\t' ∉ r5 := by
    rw [hr5]
    exact not_mem_pyReplace_single (by decide)
  have ht6 : '\t' ∉ r6 := not_mem_pyReplace ht5 (by decide)
  refine ⟨not_mem_tail_stages (by decide) (by decide) (by decide) hn6,
          not_mem_tail_stages (by decide) (by decide) (by decide) hc6,
          not_mem_tail_stages (by decide) (by decide) (by decide) hb6,
          not_mem_tail_stages (by decide) (by decide) (by decide) hs6,
          not_mem_tail_stages (by decide) (by decide) (by decide) ht6,
          not_infix_collapseSpaces _, ?_⟩
  intro c hc
  rcases mem_collapseSpaces hc with h | h | h
  · exact pyLower_no_upper c h
  · subst h
    decide
  · subst h
    decide

/-- C4 (counterexample).  The claim asserts that the normalized text never
contains a space immediately before a comma or a closing parenthesis.  On the
raw DDL text consisting of the three characters a, space, comma, the comment
stripper changes nothing and the whitespace loop never runs because there is
no double space, so the space before the comma survives normalisation. -/
theorem c4_counterexample :
    normalizedDetectionText "a ,".toList = "a ,".toList ∧
      " ,".toList <:+: normalizedDetectionText "a ,".toList := by
  constructor
  · rfl
  · decide

/-- C4 (amended): for every raw DDL string, the normalized text produced
before change detection contains no newline, carriage-return, backtick,
semicolon or tab character, no run of two or more consecutive spaces, and no
ASCII upper-case letter; a space immediately preceding a comma or a closing
parenthesis can, however, survive (see the counterexample). -/
theorem c4_normalized_text_properties (raw : List Char) :
    '\n' ∉ normalizedDetectionText raw ∧ '\r' ∉ normalizedDetectionText raw ∧
    '\x60' ∉ normalizedDetectionText raw ∧ ';' ∉ normalizedDetectionText raw ∧
    '\t' ∉ normalizedDetectionText raw ∧
    ¬ ("  ".toList <:+: normalizedDetectionText raw) ∧
    ∀ c ∈ normalizedDetectionText raw, c.isUpper = false :=
  normalize_shape (stripComments raw)

/-- C4 (witness): the amended statement applied to a concrete raw DDL text. -/
theorem c4_witness :
    '\n' ∉ normalizedDetectionText "A\tB ( x );\n".toList ∧
    '\r' ∉ normalizedDetectionText "A\tB ( x );\n".toList ∧
    '\x60' ∉ normalizedDetectionText "A\tB ( x );\n".toList ∧
    ';' ∉ normalizedDetectionText "A\tB ( x );\n".toList ∧
    '\t' ∉ normalizedDetectionText "A\tB ( x );\n".toList ∧
    ¬ ("  ".toList <:+: normalizedDetectionText "A\tB ( x );\n".toList) ∧
    ∀ c ∈ normalizedDetectionText "A\tB ( x );\n".toList, c.isUpper = false :=
  c4_normalized_text_properties _

/- Balanced parentheses and the column-segment scanner. -/

@[simp] lemma opensCount_nil : opensCount [] = 0 := rfl

@[simp] lemma closesCount_nil : closesCount [] = 0 := rfl

@[simp] lemma opensCount_cons (c : Char) (t : List Char) :
    opensCount (c :: t) = opensCount t + (if c = '(' then 1 else 0) := by
  by_cases h : c = '(' <;> simp [opensCount, List.countP_cons, h]

@[simp] lemma closesCount_cons (c : Char) (t : List Char) :
    closesCount (c :: t) = closesCount t + (if c = ')' then 1 else 0) := by
  by_cases h : c = ')' <;> simp [closesCount, List.countP_cons, h]

lemma balCheck_iff : ∀ (l : List Char) (d : Nat),
    balCheck l d = true ↔
      (∀ q, q <+: l → closesCount q ≤ opensCount q + d) ∧ opensCount l + d = closesCount l := by
  intro l
  induction l with
  | nil =>
    intro d
    simp only [balCheck, opensCount_nil, closesCount_nil, decide_eq_true_eq]
    constructor
    · intro h
      refine ⟨?_, by omega⟩
      intro q hq
      rw [List.prefix_nil.mp hq]
      simp
    · intro ⟨_, h⟩
      omega
  | cons c t ih =>
    intro d
    by_cases hc : c = '('
    · subst hc
      simp only [balCheck, if_pos rfl, if_true]
      rw [ih]
      constructor
      · intro ⟨h1, h2⟩
        refine ⟨?_, by simp; omega⟩
        intro q hq
        rcases List.prefix_cons_iff.mp hq with he | ⟨q2, he, hq2⟩
        · subst he
          simp
        · subst he
          have h3 := h1 q2 hq2
          simp
          omega
      · intro ⟨h1, h2⟩
        refine ⟨?_, by simp at h2; omega⟩
        intro q hq
        have h3 := h1 ('(' :: q) (List.cons_prefix_cons.mpr ⟨rfl, hq⟩)
        simp at h3
        omega
    · by_cases hc2 : c = ')'
      · subst hc2
        simp only [balCheck, if_neg (by decide : ¬ (')' = '(')), if_pos rfl, if_true]
        cases d with
        | zero =>
          simp only [if_pos rfl, if_true]
          constructor
          · intro h
            exact absurd h (by simp)
          · intro ⟨h1, _⟩
            have h3 := h1 [')'] (List.cons_prefix_cons.mpr ⟨rfl, List.nil_prefix⟩)
            simp at h3
        | succ e =>
          rw [if_neg (by omega : ¬ (e + 1 = 0))]
          simp only [Nat.add_sub_cancel]
          rw [ih]
          constructor
          · intro ⟨h1, h2⟩
            refine ⟨?_, by simp; omega⟩
            intro q hq
            rcases List.prefix_cons_iff.mp hq with he | ⟨q2, he, hq2⟩
            · subst he
              simp
            · subst he
              have h3 := h1 q2 hq2
              simp
              omega
          · intro ⟨h1, h2⟩
            refine ⟨?_, by simp at h2; omega⟩
            intro q hq
            have h3 := h1 (')' :: q) (List.cons_prefix_cons.mpr ⟨rfl, hq⟩)
            simp at h3
            omega
      · simp only [balCheck, if_neg hc, if_neg hc2]
        rw [ih]
        constructor
        · intro ⟨h1, h2⟩
          refine ⟨?_, by simp [hc, hc2]; omega⟩
          intro q hq
          rcases List.prefix_cons_iff.mp hq with he | ⟨q2, he, hq2⟩
          · subst he
            simp
          · subst he
            have h3 := h1 q2 hq2
            simp [hc, hc2]
            omega
        · intro ⟨h1, h2⟩
          refine ⟨?_, by simp [hc, hc2] at h2; omega⟩
          intro q hq
          have h3 := h1 (c :: q) (List.cons_prefix_cons.mpr ⟨rfl, hq⟩)
          simp [hc, hc2] at h3
          omega

instance (l : List Char) : Decidable (BalancedPar l) :=
  decidable_of_iff (balCheck l 0 = true) (by
    rw [balCheck_iff]
    unfold BalancedPar
    constructor
    · intro ⟨h1, h2⟩
      exact ⟨fun q hq => by have := h1 q hq; omega, by omega⟩
    · intro ⟨h1, h2⟩
      exact ⟨fun q hq => by have := h1 q hq; omega, by omega⟩)

lemma scan_skip :
    ∀ (p : List Char), (∀ c ∈ p, c ≠ '(' ∧ c ≠ ')') →
      ∀ (r : List Char) (i : Nat) (st : List Nat) (d : List (Nat × Nat)),
        scanCols (p ++ r) i st d = scanCols r (i + p.length) st d := by
  intro p
  induction p with
  | nil =>
    intro _ r i st d
    simp
  | cons c p2 ih =>
    intro hp r i st d
    have hc := hp c (List.mem_cons_self c p2)
    simp only [List.cons_append, scanCols, if_neg hc.1, if_neg hc.2, List.append_eq]
    rw [ih (fun x hx => hp x (List.mem_cons_of_mem c hx)) r (i + 1) st d]
    congr 1
    simp only [List.length_cons]
    omega

lemma scan_bal :
    ∀ (mid : List Char) (r : List Char) (i : Nat) (ext st : List Nat)
      (dict : List (Nat × Nat)), st ≠ [] →
      (∀ q, q <+: mid → closesCount q ≤ opensCount q + ext.length) →
      ∃ ext2 extra, scanCols (mid ++ r) i (ext ++ st) dict =
          scanCols r (i + mid.length) (ext2 ++ st) (dict ++ extra) ∧
        ext2.length + closesCount mid = ext.length + opensCount mid := by
  intro mid
  induction mid with
  | nil =>
    intro r i ext st dict _ _
    refine ⟨ext, [], ?_, ?_⟩
    · simp
    · simp
  | cons c m ih =>
    intro r i ext st dict hst hb
    by_cases hc : c = '('
    · subst hc
      simp only [List.cons_append, scanCols, if_pos rfl, if_true, List.append_eq]
      have hb2 : ∀ q, q <+: m → closesCount q ≤ opensCount q + (i :: ext).length := by
        intro q hq
        have h3 := hb ('(' :: q) (List.cons_prefix_cons.mpr ⟨rfl, hq⟩)
        simp at h3
        simp only [List.length_cons]
        omega
      obtain ⟨ext2, extra, heq, hcnt⟩ := ih r (i + 1) (i :: ext) st dict hst hb2
      refine ⟨ext2, extra, ?_, ?_⟩
      · rw [show i :: (ext ++ st) = (i :: ext) ++ st from rfl, heq]
        congr 1
        simp only [List.length_cons]
        omega
      · simp only [List.length_cons] at hcnt
        simp
        omega
    · by_cases hc2 : c = ')'
      · subst hc2
        have hne : ext ≠ [] := by
          intro he
          subst he
          have h3 := hb [')'] (List.cons_prefix_cons.mpr ⟨rfl, List.nil_prefix⟩)
          simp at h3
        cases ext with
        | nil => exact absurd rfl hne
        | cons e ext2 =>
          simp only [List.cons_append, scanCols, if_neg (by decide : ¬ (')' = '(')),
            if_pos rfl, if_true, List.append_eq]
          have hst2 : ext2 ++ st ≠ [] := by
            intro he
            exact hst (List.append_eq_nil.mp he).2
          rw [if_neg hst2]
          have hb2 : ∀ q, q <+: m → closesCount q ≤ opensCount q + ext2.length := by
            intro q hq
            have h3 := hb (')' :: q) (List.cons_prefix_cons.mpr ⟨rfl, hq⟩)
            simp only [List.length_cons] at h3 ⊢
            simp at h3
            omega
          obtain ⟨ext3, extra, heq, hcnt⟩ := ih r (i + 1) ext2 st (dict ++ [(e, i)]) hst hb2
          refine ⟨ext3, (e, i) :: extra, ?_, ?_⟩
          · rw [heq]
            rw [List.append_assoc]
            congr 1
            simp only [List.length_cons]
            omega
          · simp only [List.length_cons]
            simp
            omega
      · simp only [List.cons_append, scanCols, if_neg hc, if_neg hc2, List.append_eq]
        have hb2 : ∀ q, q <+: m → closesCount q ≤ opensCount q + ext.length := by
          intro q hq
          have h3 := hb (c :: q) (List.cons_prefix_cons.mpr ⟨rfl, hq⟩)
          simp [hc, hc2] at h3
          omega
        obtain ⟨ext2, extra, heq, hcnt⟩ := ih r (i + 1) ext st dict hst hb2
        refine ⟨ext2, extra, ?_, ?_⟩
        · rw [heq]
          congr 1
          simp only [List.length_cons]
          omega
        · simp [hc, hc2]
          omega

lemma split_of_decomp (pre mid post : List Char)
    (hpre : ∀ c ∈ pre, c ≠ '(' ∧ c ≠ ')') (hbal : BalancedPar mid) :
    splitDdlColumnsSegment (pre ++ '(' :: (mid ++ ')' :: post)) = .ok (pyStrip mid, post) := by
  obtain ⟨ext2, extra, heq, hcnt⟩ :=
    scan_bal mid (')' :: post) (pre.length + 1) [] [pre.length] []
      (by simp) (fun q hq => by have := hbal.1 q hq; simpa using this)
  have hext2 : ext2 = [] := by
    have h2 := hbal.2
    simp only [List.length_nil] at hcnt
    have : ext2.length = 0 := by omega
    exact List.length_eq_zero.mp this
  subst hext2
  simp only [List.nil_append] at heq
  have hscan0 : scanCols (pre ++ '(' :: (mid ++ ')' :: post)) 0 [] [] =
      .scanBroke (extra ++ [(pre.length, pre.length + 1 + mid.length)])
        (pre.length + 1 + mid.length) := by
    rw [scan_skip pre hpre ('(' :: (mid ++ ')' :: post)) 0 [] []]
    simp only [scanCols, if_pos rfl, if_true, Nat.zero_add]
    rw [heq]
    simp [scanCols]
  unfold splitDdlColumnsSegment
  rw [hscan0]
  have hlast : (extra ++ [(pre.length, pre.length + 1 + mid.length)]).getLast? =
      some (pre.length, pre.length + 1 + mid.length) := by
    rw [List.getLast?_append]
    rfl
  simp only [hlast]
  have hdrop : (pre ++ '(' :: (mid ++ ')' :: post)).drop (pre.length + 1) = mid ++ ')' :: post := by
    have : pre ++ '(' :: (mid ++ ')' :: post) = (pre ++ ['(']) ++ (mid ++ ')' :: post) := by
      simp
    rw [this]
    have hl : (pre ++ ['(']).length = pre.length + 1 := by simp
    rw [← hl, List.drop_left]
  have htake : (mid ++ ')' :: post).take (pre.length + 1 + mid.length - (pre.length + 1)) = mid := by
    have : pre.length + 1 + mid.length - (pre.length + 1) = mid.length := by omega
    rw [this, List.take_left]
  have hdrop2 : (pre ++ '(' :: (mid ++ ')' :: post)).drop (pre.length + 1 + mid.length + 1) =
      post := by
    have : pre ++ '(' :: (mid ++ ')' :: post) = ((pre ++ ['(']) ++ mid ++ [')']) ++ post := by
      simp
    rw [this]
    have hl : ((pre ++ ['(']) ++ mid ++ [')']).length = pre.length + 1 + mid.length + 1 := by
      simp
      omega
    rw [← hl, List.drop_left]
  rw [hdrop, htake, hdrop2]

lemma scan_empty_stack :
    ∀ (cs : List Char) (i : Nat) (dict : List (Nat × Nat)),
      (∃ p t, cs = p ++ ')' :: t ∧ (∀ c ∈ p, c ≠ '(' ∧ c ≠ ')') ∧
        scanCols cs i [] dict = .scanErr) ∨
      (∃ p t, cs = p ++ '(' :: t ∧ (∀ c ∈ p, c ≠ '(' ∧ c ≠ ')') ∧
        scanCols cs i [] dict = scanCols t (i + p.length + 1) [i + p.length] dict) ∨
      ((∀ c ∈ cs, c ≠ '(' ∧ c ≠ ')') ∧ scanCols cs i [] dict = .scanDone [] dict) := by
  intro cs
  induction cs with
  | nil =>
    intro i dict
    right
    right
    exact ⟨by simp, rfl⟩
  | cons c t ih =>
    intro i dict
    by_cases hc : c = '('
    · subst hc
      right
      left
      refine ⟨[], t, by simp, by simp, ?_⟩
      simp [scanCols]
    · by_cases hc2 : c = ')'
      · subst hc2
        left
        refine ⟨[], t, by simp, by simp, ?_⟩
        simp [scanCols]
      · rcases ih (i + 1) dict with ⟨p, t2, he, hp, hres⟩ | ⟨p, t2, he, hp, hres⟩ | ⟨hall, hres⟩
        · left
          refine ⟨c :: p, t2, by rw [he]; rfl, ?_, ?_⟩
          · intro x hx
            rcases List.mem_cons.mp hx with h | h
            · subst h
              exact ⟨hc, hc2⟩
            · exact hp x h
          · simp only [scanCols, if_neg hc, if_neg hc2]
            exact hres
        · right
          left
          refine ⟨c :: p, t2, by rw [he]; rfl, ?_, ?_⟩
          · intro x hx
            rcases List.mem_cons.mp hx with h | h
            · subst h
              exact ⟨hc, hc2⟩
            · exact hp x h
          · simp only [scanCols, if_neg hc, if_neg hc2]
            rw [hres]
            have h1 : i + 1 + p.length = i + (c :: p).length := by
              simp only [List.length_cons]
              omega
            rw [h1]
        · right
          right
          refine ⟨?_, ?_⟩
          · intro x hx
            rcases List.mem_cons.mp hx with h | h
            · subst h
              exact ⟨hc, hc2⟩
            · exact hall x h
          · simp only [scanCols, if_neg hc, if_neg hc2]
            exact hres

lemma scan_single_base :
    ∀ (cs : List Char) (i : Nat) (ext : List Nat) (n : Nat) (dict : List (Nat × Nat)),
      (∃ q rest, cs = q ++ ')' :: rest ∧
        (∀ p2, p2 <+: q → closesCount p2 ≤ opensCount p2 + ext.length) ∧
        closesCount q = opensCount q + ext.length ∧
        ∃ dict2, scanCols cs i (ext ++ [n]) dict = .scanBroke dict2 (i + q.length) ∧
          dict2.getLast? = some (n, i + q.length)) ∨
      (∃ st2 dict2, scanCols cs i (ext ++ [n]) dict = .scanDone (st2 ++ [n]) dict2) := by
  intro cs
  induction cs with
  | nil =>
    intro i ext n dict
    right
    exact ⟨ext, dict, rfl⟩
  | cons c t ih =>
    intro i ext n dict
    by_cases hc : c = '('
    · subst hc
      have hstep : scanCols ('(' :: t) i (ext ++ [n]) dict =
          scanCols t (i + 1) ((i :: ext) ++ [n]) dict := by
        simp [scanCols]
      rcases ih (i + 1) (i :: ext) n dict with
        ⟨q, rest, he, hpre, hcnt, dict2, hres, hlast⟩ | ⟨st2, dict2, hres⟩
      · left
        refine ⟨'(' :: q, rest, by rw [he]; rfl, ?_, ?_, dict2, ?_, ?_⟩
        · intro p2 hp2
          rcases List.prefix_cons_iff.mp hp2 with hn | ⟨p3, hn, hp3⟩
          · subst hn
            simp
          · subst hn
            have h3 := hpre p3 hp3
            simp only [List.length_cons] at h3
            simp
            omega
        · have h3 := hcnt
          simp only [List.length_cons] at h3
          simp
          omega
        · rw [hstep, hres]
          congr 1
          simp only [List.length_cons]
          omega
        · have h4 : i + ('(' :: q).length = i + 1 + q.length := by
            simp only [List.length_cons]
            omega
          rw [h4]
          exact hlast
      · right
        refine ⟨st2, dict2, ?_⟩
        rw [hstep]
        exact hres
    · by_cases hc2 : c = ')'
      · subst hc2
        cases ext with
        | nil =>
          left
          refine ⟨[], t, by simp, ?_, by simp, dict ++ [(n, i)], ?_, ?_⟩
          · intro p2 hp2
            rw [List.prefix_nil.mp hp2]
            simp
          · simp [scanCols]
          · rw [List.getLast?_append]
            rfl
        | cons e ext2 =>
          have hstep : scanCols (')' :: t) i ((e :: ext2) ++ [n]) dict =
              scanCols t (i + 1) (ext2 ++ [n]) (dict ++ [(e, i)]) := by
            simp only [List.cons_append, scanCols, if_neg (by decide : ¬ (')' = '(')),
              if_pos rfl, if_true]
            rw [if_neg (by simp : ¬ (ext2 ++ [n] = []))]
          rcases ih (i + 1) ext2 n (dict ++ [(e, i)]) with
            ⟨q, rest, he, hpre, hcnt, dict2, hres, hlast⟩ | ⟨st2, dict2, hres⟩
          · left
            refine ⟨')' :: q, rest, by rw [he]; rfl, ?_, ?_, dict2, ?_, ?_⟩
            · intro p2 hp2
              rcases List.prefix_cons_iff.mp hp2 with hn | ⟨p3, hn, hp3⟩
              · subst hn
                simp
              · subst hn
                have h3 := hpre p3 hp3
                simp only [List.length_cons]
                simp
                omega
            · have h3 := hcnt
              simp only [List.length_cons]
              simp
              omega
            · rw [hstep, hres]
              congr 1
              simp only [List.length_cons]
              omega
            · have h4 : i + (')' :: q).length = i + 1 + q.length := by
                simp only [List.length_cons]
                omega
              rw [h4]
              exact hlast
          · right
            refine ⟨st2, dict2, ?_⟩
            rw [hstep]
            exact hres
      · have hstep : scanCols (c :: t) i (ext ++ [n]) dict =
            scanCols t (i + 1) (ext ++ [n]) dict := by
          simp only [scanCols, if_neg hc, if_neg hc2]
        rcases ih (i + 1) ext n dict with
          ⟨q, rest, he, hpre, hcnt, dict2, hres, hlast⟩ | ⟨st2, dict2, hres⟩
        · left
          refine ⟨c :: q, rest, by rw [he]; rfl, ?_, ?_, dict2, ?_, ?_⟩
          · intro p2 hp2
            rcases List.prefix_cons_iff.mp hp2 with hn | ⟨p3, hn, hp3⟩
            · subst hn
              simp
            · subst hn
              have h3 := hpre p3 hp3
              simp [hc, hc2]
              omega
          · have h3 := hcnt
            simp [hc, hc2]
            omega
          · rw [hstep, hres]
            congr 1
            simp only [List.length_cons]
            omega
          · have h4 : i + (c :: q).length = i + 1 + q.length := by
              simp only [List.length_cons]
              omega
            rw [h4]
            exact hlast
        · right
          refine ⟨st2, dict2, ?_⟩
          rw [hstep]
          exact hres

/-- C3: for every input text whose first outermost parenthesized group is
balanced -- a parenthesis-free prefix, an opening parenthesis, balanced
content (possibly with nested parentheses), its closing parenthesis, and a
remainder -- split_ddl_columns_segment returns the full content between that
group's parentheses, stripped, together with the remainder text after the
closing parenthesis. -/
theorem c3_split_columns_segment (pre mid post : List Char)
    (hpre : ∀ c ∈ pre, c ≠ '(' ∧ c ≠ ')') (hbal : BalancedPar mid) :
    splitDdlColumnsSegment (pre ++ '(' :: (mid ++ ')' :: post)) = .ok (pyStrip mid, post) :=
  split_of_decomp pre mid post hpre hbal

/-- C3 (witness): the nested-parenthesis column list of the claim.  The
returned segment is the full two-column list, not truncated at the nested
parenthesis of the decimal type. -/
theorem c3_witness :
    (∀ c ∈ ([] : List Char), c ≠ '(' ∧ c ≠ ')') ∧
    BalancedPar "id int, amt decimal(10,2)".toList ∧
    splitDdlColumnsSegment "(id int, amt decimal(10,2))".toList =
      .ok ("id int, amt decimal(10,2)".toList, []) := by
  refine ⟨by decide, by decide, ?_⟩
  have h := c3_split_columns_segment [] "id int, amt decimal(10,2)".toList []
    (by decide) (by decide)
  have he : ([] : List Char) ++ '(' :: ("id int, amt decimal(10,2)".toList ++ ')' :: []) =
      "(id int, amt decimal(10,2))".toList := by decide
  rw [he] at h
  rw [h]
  have : pyStrip "id int, amt decimal(10,2)".toList = "id int, amt decimal(10,2)".toList := by
    decide
  rw [this]

/-- C8 (counterexample).  The claim says split_ddl_columns_segment raises an
error exactly when the scanned parentheses are unbalanced and returns
normally on balanced input.  The text abc has balanced parentheses (none at
all), yet the function raises an IndexError from the [-1] access on the empty
dictionary of matched pairs. -/
theorem c8_counterexample :
    splitDdlColumnsSegment "abc".toList = .error .indexError ∧
      BalancedPar "abc".toList := by
  constructor
  · rfl
  · decide

/-- C8 (amended): split_ddl_columns_segment returns normally exactly when the
text contains a first outermost balanced parenthesized group, that is it
decomposes as a parenthesis-free prefix, an opening parenthesis, balanced
content, its closing parenthesis and a remainder.  It raises an error in
every other case: a close with no matching open, scanning ending with
unclosed opens, and additionally a text with no parenthesized group at all
(see the counterexample). -/
theorem c8_split_error_conditions (text : List Char) :
    (∃ seg rem, splitDdlColumnsSegment text = .ok (seg, rem)) ↔
      (∃ pre mid post, text = pre ++ '(' :: (mid ++ ')' :: post) ∧
        (∀ c ∈ pre, c ≠ '(' ∧ c ≠ ')') ∧ BalancedPar mid) := by
  constructor
  · rintro ⟨seg, rem, hok⟩
    rcases scan_empty_stack text 0 [] with
      ⟨p, t, he, hp, hres⟩ | ⟨p, t, he, hp, hres⟩ | ⟨hall, hres⟩
    · exfalso
      unfold splitDdlColumnsSegment at hok
      simp [hres] at hok
    · rcases scan_single_base t (0 + p.length + 1) [] p.length [] with
        ⟨q, rest, he2, hpre, hcnt, dict2, hres2, _⟩ | ⟨st2, dict2, hres2⟩
      · refine ⟨p, q, rest, ?_, hp, ?_⟩
        · rw [he, he2]
        · constructor
          · intro p2 hp2
            have h3 := hpre p2 hp2
            simpa using h3
          · simp only [List.length_nil] at hcnt
            omega
      · exfalso
        unfold splitDdlColumnsSegment at hok
        simp only [List.nil_append, Nat.zero_add] at hres2
        simp [hres, hres2] at hok
    · exfalso
      unfold splitDdlColumnsSegment at hok
      simp [hres] at hok
  · rintro ⟨pre, mid, post, he, hp, hb⟩
    subst he
    exact ⟨pyStrip mid, post, split_of_decomp pre mid post hp hb⟩

/- Clause indexing and segmentation. -/

lemma clauseEntry_index_ge (text cl : List Char) : -1 ≤ (clauseEntry text cl).index := by
  unfold clauseEntry
  by_cases h1 : pyStrip cl = "comment \x27".toList
  · rw [if_pos h1]
    by_cases h2 : pyFind text (pyStrip cl) = 0
    · rw [if_pos h2]
      show -1 ≤ pyFind text (pyStrip cl)
      exact neg_one_le_pyFind _ _
    · rw [if_neg h2]
      show -1 ≤ NOT_FOUND
      unfold NOT_FOUND
      omega
  · rw [if_neg h1]
    exact neg_one_le_pyFind _ _

lemma index_mem_ge (t : List Char) (cat : List (List Char)) :
    ∀ e ∈ indexDdlClauses t cat, -1 ≤ e.index := by
  intro e he
  unfold indexDdlClauses sortByIndex at he
  rw [List.mem_insertionSort] at he
  rcases List.mem_map.mp he with ⟨cl, _, hec⟩
  rw [← hec]
  exact clauseEntry_index_ge t cl

lemma index_sorted (t : List Char) (cat : List (List Char)) :
    List.Pairwise clauseLe (indexDdlClauses t cat) :=
  List.sorted_insertionSort clauseLe _

lemma index_length (t : List Char) (cat : List (List Char)) :
    (indexDdlClauses t cat).length = cat.length := by
  unfold indexDdlClauses sortByIndex
  rw [List.length_insertionSort, List.length_map]

lemma dropWhile_head_not {α : Type} (p : α → Bool) :
    ∀ (L : List α) (h : α) (t2 : List α), L.dropWhile p = h :: t2 → p h = false := by
  intro L
  induction L with
  | nil =>
    intro h t2 he
    simp [List.dropWhile] at he
  | cons a L2 ih =>
    intro h t2 he
    rw [List.dropWhile_cons] at he
    by_cases hp : p a = true
    · rw [if_pos hp] at he
      exact ih h t2 he
    · rw [if_neg hp] at he
      have : a = h := (List.cons.injEq .. ▸ he).1
      rw [← this]
      exact Bool.eq_false_iff.mpr hp

lemma sorted_split (L : List ClauseIdx) (hs : List.Pairwise clauseLe L)
    (hge : ∀ e ∈ L, -1 ≤ e.index) :
    ∃ A B, L = A ++ B ∧ (∀ a ∈ A, a.index = -1) ∧ (∀ b ∈ B, b.index ≠ -1) ∧
      A = L.takeWhile (fun e => e.index = -1) ∧ B = L.dropWhile (fun e => e.index = -1) := by
  refine ⟨L.takeWhile (fun e => e.index = -1), L.dropWhile (fun e => e.index = -1),
    (List.takeWhile_append_dropWhile _ _).symm, ?_, ?_, rfl, rfl⟩
  · intro a ha
    have h1 := List.mem_takeWhile_imp ha
    simpa using h1
  · intro b hb
    cases hBc : L.dropWhile (fun e => e.index = -1) with
    | nil =>
      rw [hBc] at hb
      exact absurd hb (List.not_mem_nil b)
    | cons h t2 =>
      have hh : ¬ (h.index = -1) := by
        have h1 := dropWhile_head_not (fun e => decide (e.index = -1)) L h t2 hBc
        simpa using h1
      have hhL : h ∈ L := (List.dropWhile_sublist _).subset (hBc ▸ List.mem_cons_self h t2)
      have hh0 : 0 ≤ h.index := by
        have := hge h hhL
        omega
      rw [hBc] at hb
      rcases List.mem_cons.mp hb with hbe | hbt
      · rw [hbe]
        exact hh
      · have hpw : List.Pairwise clauseLe (L.dropWhile (fun e => e.index = -1)) := by
          have h2 := hs
          rw [← List.takeWhile_append_dropWhile (fun e => decide (e.index = -1)) L] at h2
          exact (List.pairwise_append.mp h2).2.1
        rw [hBc] at hpw
        have hle : clauseLe h b := (List.pairwise_cons.mp hpw).1 b hbt
        unfold clauseLe at hle
        intro hbm
        omega

lemma segLoop_all_notfound (t : List Char) :
    ∀ (A : List ClauseIdx), (∀ a ∈ A, a.index = -1) → segLoop t A = [] := by
  intro A
  induction A with
  | nil => intro _; rfl
  | cons a A2 ih =>
    intro hA
    have ha := hA a (List.mem_cons_self a A2)
    cases A2 with
    | nil =>
      show (if a.index ≠ NOT_FOUND then _ else []) = []
      rw [if_neg (by unfold NOT_FOUND; omega)]
    | cons b A3 =>
      show ((if a.index ≠ NOT_FOUND then _ else []) ++ segLoop t (b :: A3)) = []
      rw [if_neg (by unfold NOT_FOUND; omega)]
      rw [List.nil_append]
      exact ih (fun x hx => hA x (List.mem_cons_of_mem a hx))

lemma segLoop_skip_notfound (t : List Char) :
    ∀ (A B : List ClauseIdx), (∀ a ∈ A, a.index = -1) → B ≠ [] →
      segLoop t (A ++ B) = segLoop t B := by
  intro A
  induction A with
  | nil => intro B _ _; rfl
  | cons a A2 ih =>
    intro B hA hB
    have ha := hA a (List.mem_cons_self a A2)
    have hAB : A2 ++ B ≠ [] := by
      intro he
      exact hB (List.append_eq_nil.mp he).2
    cases hc : A2 ++ B with
    | nil => exact absurd hc hAB
    | cons h t2 =>
      have : segLoop t ((a :: A2) ++ B) = segLoop t (a :: h :: t2) := by
        rw [List.cons_append, hc]
      rw [this]
      show ((if a.index ≠ NOT_FOUND then _ else []) ++ segLoop t (h :: t2)) = _
      rw [if_neg (by unfold NOT_FOUND; omega)]
      rw [List.nil_append, ← hc]
      exact ih B (fun x hx => hA x (List.mem_cons_of_mem a hx)) hB

lemma segLoop_found (t : List Char) :
    ∀ (B : List ClauseIdx), (∀ b ∈ B, b.index ≠ -1) →
      segLoop t B = consecutiveSlices t (B.map (fun e => e.index)) := by
  intro B
  induction B with
  | nil => intro _; rfl
  | cons b B2 ih =>
    intro hB
    have hb := hB b (List.mem_cons_self b B2)
    cases B2 with
    | nil =>
      show (if b.index ≠ NOT_FOUND then [pyStrip (pySlice t b.index (Int.ofNat t.length))]
        else []) = _
      rw [if_pos (by unfold NOT_FOUND; omega)]
      rfl
    | cons b2 B3 =>
      show ((if b.index ≠ NOT_FOUND then [pyStrip (pySlice t b.index b2.index)] else []) ++
        segLoop t (b2 :: B3)) = _
      rw [if_pos (by unfold NOT_FOUND; omega)]
      rw [ih (fun x hx => hB x (List.mem_cons_of_mem b hx))]
      rfl

lemma foundIndices_decomp (A B : List ClauseIdx) (hA : ∀ a ∈ A, a.index = -1)
    (hB : ∀ b ∈ B, b.index ≠ -1) :
    foundIndices (A ++ B) = B.map (fun e => e.index) := by
  unfold foundIndices NOT_FOUND
  rw [List.filter_append]
  have h1 : A.filter (fun e => e.index ≠ -1) = [] := by
    rw [List.filter_eq_nil_iff]
    intro a ha
    simp [hA a ha]
  have h2 : B.filter (fun e => e.index ≠ -1) = B := by
    rw [List.filter_eq_self]
    intro b hb
    simp [hB b hb]
  rw [h1, h2, List.nil_append]

/-- C6: for every text and every catalog of at least two markers, the
segments produced by segmentize_ddl_by_clause from the sorted clause index
are exactly the stripped slices of the text between consecutive found
offsets, the last running to the end of the text.  The offsets are
nonnegative and weakly increasing, so the segments are contiguous (each
slice's end is the next slice's start), non-overlapping, and ordered by
starting offset, up to boundary whitespace trimming; markers recorded as not
found contribute no segment (there is one segment per found marker). -/
theorem c6_segments_partition (t : List Char) (cat : List (List Char)) (h2 : 2 ≤ cat.length) :
    ∃ segs, segmentizeDdlByClause t (indexDdlClauses t cat) = .ok segs ∧
      segs = consecutiveSlices t (foundIndices (indexDdlClauses t cat)) ∧
      List.Chain' (· ≤ ·) (foundIndices (indexDdlClauses t cat)) ∧
      ∀ i ∈ foundIndices (indexDdlClauses t cat), 0 ≤ i := by
  have hlen : 2 ≤ (indexDdlClauses t cat).length := by
    rw [index_length]
    exact h2
  obtain ⟨A, B, hAB, hA, hB, _, _⟩ :=
    sorted_split (indexDdlClauses t cat) (index_sorted t cat) (index_mem_ge t cat)
  have hseg : segmentizeDdlByClause t (indexDdlClauses t cat) =
      .ok (segLoop t (indexDdlClauses t cat)) := by
    rcases hL : indexDdlClauses t cat with _ | ⟨a, _ | ⟨b, L3⟩⟩
    · rw [hL] at hlen
      simp at hlen
    · rw [hL] at hlen
      simp at hlen
    · rfl
  refine ⟨segLoop t (indexDdlClauses t cat), hseg, ?_, ?_, ?_⟩
  · rw [hAB, foundIndices_decomp A B hA hB]
    cases hBc : B with
    | nil =>
      rw [List.append_nil, segLoop_all_notfound t A hA]
      rfl
    | cons b B2 =>
      rw [← hBc, segLoop_skip_notfound t A B hA (by rw [hBc]; simp)]
      exact segLoop_found t B hB
  · rw [hAB, foundIndices_decomp A B hA hB]
    have hpw : List.Pairwise clauseLe B := by
      have h3 := index_sorted t cat
      rw [hAB] at h3
      exact (List.pairwise_append.mp h3).2.1
    apply List.Pairwise.chain'
    rw [List.pairwise_map]
    exact hpw
  · intro i hi
    rw [hAB, foundIndices_decomp A B hA hB] at hi
    rcases List.mem_map.mp hi with ⟨b, hbm, hbe⟩
    have hge := index_mem_ge t cat b (by rw [hAB]; exact List.mem_append_right A hbm)
    have hne := hB b hbm
    omega

/-- C6 (witness): the amended statement at a concrete text and the
seven-marker top-level catalog. -/
theorem c6_witness :
    2 ≤ ddlClausesList.length ∧
    ∃ segs, segmentizeDdlByClause "location \x27s3://b/t\x27".toList
        (indexDdlClauses "location \x27s3://b/t\x27".toList ddlClausesList) = .ok segs ∧
      segs = consecutiveSlices "location \x27s3://b/t\x27".toList
        (foundIndices (indexDdlClauses "location \x27s3://b/t\x27".toList ddlClausesList)) ∧
      List.Chain' (· ≤ ·)
        (foundIndices (indexDdlClauses "location \x27s3://b/t\x27".toList ddlClausesList)) ∧
      ∀ i ∈ foundIndices (indexDdlClauses "location \x27s3://b/t\x27".toList ddlClausesList),
        0 ≤ i :=
  ⟨by decide, c6_segments_partition _ ddlClausesList (by decide)⟩

/-- C5 (counterexample).  The claim says markers not found in the text sort
last, after every found marker.  On the text below only the location marker
is found (at offset 0); all six not-found markers, recorded with index -1,
sort before it, so the first entry of the returned list is a not-found
marker while a found marker sits at the end. -/
theorem c5_counterexample :
    (indexDdlClauses "location \x27s3://b/t\x27".toList ddlClausesList).map
        (fun e => e.index) = [-1, -1, -1, -1, -1, -1, 0] := by
  decide

/-- C5 (amended): the list returned by index_ddl_clauses is sorted by its
recorded Index ascending; every recorded Index is at least -1, and the
not-found markers (Index -1) therefore sort first, before every found
marker: every entry preceding a not-found entry is itself not found. -/
theorem c5_sorted_by_index (t : List Char) (cat : List (List Char)) :
    List.Pairwise clauseLe (indexDdlClauses t cat) ∧
    (∀ e ∈ indexDdlClauses t cat, -1 ≤ e.index) ∧
    ∀ l1 a l2, indexDdlClauses t cat = l1 ++ a :: l2 → a.index = -1 →
      ∀ b ∈ l1, b.index = -1 := by
  refine ⟨index_sorted t cat, index_mem_ge t cat, ?_⟩
  intro l1 a l2 he ha b hb
  have hpw := index_sorted t cat
  rw [he] at hpw
  have hle : clauseLe b a := by
    rcases List.pairwise_append.mp hpw with ⟨_, _, hcross⟩
    exact hcross b hb a (List.mem_cons_self a l2)
  unfold clauseLe at hle
  have hge := index_mem_ge t cat b (by rw [he]; exact List.mem_append_left _ hb)
  omega

/-- C5 (witness): the amended statement instantiated at the concrete text of
the counterexample; the entry before the final found entry is not found. -/
theorem c5_witness :
    ∀ b ∈ [(⟨"comment \x27".toList, -1⟩ : ClauseIdx), ⟨"partitioned by".toList, -1⟩,
        ⟨"clustered by".toList, -1⟩, ⟨"row format".toList, -1⟩, ⟨"stored as".toList, -1⟩],
      ClauseIdx.index b = -1 :=
  (c5_sorted_by_index "location \x27s3://b/t\x27".toList ddlClausesList).2.2
    [⟨"comment \x27".toList, -1⟩, ⟨"partitioned by".toList, -1⟩,
     ⟨"clustered by".toList, -1⟩, ⟨"row format".toList, -1⟩, ⟨"stored as".toList, -1⟩]
    ⟨"tblproperties".toList, -1⟩ [⟨"location \x27s3:".toList, 0⟩] (by decide) (by decide)

/- Row-format variant classification. -/

/-- Specification helper: the nine sub-clause index entries, in catalog
order, with arbitrary recorded offsets; index_ddl_clauses over the
row-format sub-clause catalog produces the stable ascending sort of exactly
this list with the offsets delivered by str.find. -/
def rowEntries (iF iE iC iM iL2 iN iS iW iD : Int) : List ClauseIdx :=
  [⟨"fields terminated by \x27".toList, iF⟩, ⟨"escaped by \x27".toList, iE⟩,
   ⟨"collection items terminated by \x27".toList, iC⟩,
   ⟨"map keys terminated by \x27".toList, iM⟩, ⟨"lines terminated by \x27".toList, iL2⟩,
   ⟨"null defined as \x27".toList, iN⟩, ⟨"serde \x27".toList, iS⟩,
   ⟨"with serdeproperties (".toList, iW⟩, ⟨"delimited".toList, iD⟩]

lemma rowEntries_clause_unique (iF iE iC iM iL2 iN iS iW iD : Int) :
    ∀ a ∈ rowEntries iF iE iC iM iL2 iN iS iW iD,
      (a.clause = "with serdeproperties (".toList →
        a = ⟨"with serdeproperties (".toList, iW⟩) ∧
      (a.clause = "serde \x27".toList → a = ⟨"serde \x27".toList, iS⟩) ∧
      (a.clause = "delimited".toList → a = ⟨"delimited".toList, iD⟩) := by
  intro a ha
  simp only [rowEntries, List.mem_cons, List.not_mem_nil, or_false] at ha
  rcases ha with h | h | h | h | h | h | h | h | h <;> subst h <;>
    refine ⟨?_, ?_, ?_⟩ <;> intro hcl <;> first | rfl | (simp at hcl)

lemma rowEntries_nodup (iF iE iC iM iL2 iN iS iW iD : Int) :
    (rowEntries iF iE iC iM iL2 iN iS iW iD).Nodup := by
  apply List.Nodup.of_map (f := fun e : ClauseIdx => e.clause)
  show List.Nodup ["fields terminated by \x27".toList, "escaped by \x27".toList,
    "collection items terminated by \x27".toList, "map keys terminated by \x27".toList,
    "lines terminated by \x27".toList, "null defined as \x27".toList, "serde \x27".toList,
    "with serdeproperties (".toList, "delimited".toList]
  decide

lemma determineLoop_acc (l : List ClauseIdx)
    (h : ∀ e ∈ l, ¬(e.clause = "with serdeproperties (".toList ∧ e.index ≠ NOT_FOUND) ∧
      ¬(e.clause = "serde \x27".toList ∧ e.index ≠ NOT_FOUND) ∧
      ¬(e.clause = "delimited".toList ∧ e.index ≠ NOT_FOUND)) :
    ∀ acc, determineLoop l acc = acc := by
  induction l with
  | nil => intro acc; rfl
  | cons e l2 ih =>
    intro acc
    have he := h e (List.mem_cons_self e l2)
    show (if _ then _ else _) = acc
    rw [if_neg he.1, if_neg he.2.1, if_neg he.2.2]
    exact ih (fun x hx => h x (List.mem_cons_of_mem e hx)) acc

lemma determineLoop_noterm_keep (l : List ClauseIdx)
    (h : ∀ e ∈ l, ¬(e.clause = "with serdeproperties (".toList ∧ e.index ≠ NOT_FOUND) ∧
      ¬(e.clause = "delimited".toList ∧ e.index ≠ NOT_FOUND)) :
    determineLoop l (some .serdeFmt) = some .serdeFmt := by
  induction l with
  | nil => rfl
  | cons e l2 ih =>
    have he := h e (List.mem_cons_self e l2)
    show (if _ then _ else _) = _
    rw [if_neg he.1]
    by_cases hs : e.clause = "serde \x27".toList ∧ e.index ≠ NOT_FOUND
    · rw [if_pos hs]
      exact ih (fun x hx => h x (List.mem_cons_of_mem e hx))
    · rw [if_neg hs, if_neg he.2]
      exact ih (fun x hx => h x (List.mem_cons_of_mem e hx))

lemma determineLoop_break_withprops (as bs : List ClauseIdx) (e : ClauseIdx)
    (he : e.clause = "with serdeproperties (".toList ∧ e.index ≠ NOT_FOUND)
    (has : ∀ a ∈ as, ¬(a.clause = "with serdeproperties (".toList ∧ a.index ≠ NOT_FOUND) ∧
      ¬(a.clause = "delimited".toList ∧ a.index ≠ NOT_FOUND)) :
    ∀ acc, determineLoop (as ++ e :: bs) acc = some .serdeWithPropertiesFmt := by
  induction as with
  | nil =>
    intro acc
    show (if _ then _ else _) = _
    rw [if_pos he]
  | cons a as2 ih =>
    intro acc
    have ha := has a (List.mem_cons_self a as2)
    show (if _ then _ else _) = _
    rw [if_neg ha.1]
    by_cases hs : a.clause = "serde \x27".toList ∧ a.index ≠ NOT_FOUND
    · rw [if_pos hs]
      exact ih (fun x hx => has x (List.mem_cons_of_mem a hx)) _
    · rw [if_neg hs, if_neg ha.2]
      exact ih (fun x hx => has x (List.mem_cons_of_mem a hx)) acc

lemma determineLoop_break_delimited (as bs : List ClauseIdx) (e : ClauseIdx)
    (he : e.clause = "delimited".toList ∧ e.index ≠ NOT_FOUND)
    (has : ∀ a ∈ as, ¬(a.clause = "with serdeproperties (".toList ∧ a.index ≠ NOT_FOUND) ∧
      ¬(a.clause = "delimited".toList ∧ a.index ≠ NOT_FOUND)) :
    ∀ acc, determineLoop (as ++ e :: bs) acc = some .delimitedFmt := by
  induction as with
  | nil =>
    intro acc
    show (if _ then _ else _) = _
    have hne : ¬ (e.clause = "with serdeproperties (".toList ∧ e.index ≠ NOT_FOUND) := by
      intro hcl
      rw [he.1] at hcl
      exact absurd hcl.1 (by decide)
    have hns : ¬ (e.clause = "serde \x27".toList ∧ e.index ≠ NOT_FOUND) := by
      intro hcl
      rw [he.1] at hcl
      exact absurd hcl.1 (by decide)
    rw [if_neg hne, if_neg hns, if_pos he]
  | cons a as2 ih =>
    intro acc
    have ha := has a (List.mem_cons_self a as2)
    show (if _ then _ else _) = _
    rw [if_neg ha.1]
    by_cases hs : a.clause = "serde \x27".toList ∧ a.index ≠ NOT_FOUND
    · rw [if_pos hs]
      exact ih (fun x hx => has x (List.mem_cons_of_mem a hx)) _
    · rw [if_neg hs, if_neg ha.2]
      exact ih (fun x hx => has x (List.mem_cons_of_mem a hx)) acc

lemma determineLoop_serde_only (l : List ClauseIdx)
    (h : ∀ e ∈ l, ¬(e.clause = "with serdeproperties (".toList ∧ e.index ≠ NOT_FOUND) ∧
      ¬(e.clause = "delimited".toList ∧ e.index ≠ NOT_FOUND))
    (hS : ∃ e ∈ l, e.clause = "serde \x27".toList ∧ e.index ≠ NOT_FOUND) :
    ∀ acc, determineLoop l acc = some .serdeFmt := by
  induction l with
  | nil =>
    exfalso
    rcases hS with ⟨e, he, _⟩
    exact List.not_mem_nil e he
  | cons a l2 ih =>
    intro acc
    have ha := h a (List.mem_cons_self a l2)
    show (if _ then _ else _) = _
    rw [if_neg ha.1]
    by_cases hs : a.clause = "serde \x27".toList ∧ a.index ≠ NOT_FOUND
    · rw [if_pos hs]
      exact determineLoop_noterm_keep l2 (fun x hx => h x (List.mem_cons_of_mem a hx))
    · rw [if_neg hs, if_neg ha.2]
      rcases hS with ⟨e, he, hef⟩
      rcases List.mem_cons.mp he with hea | hel
      · exact absurd (hea ▸ hef) hs
      · exact ih (fun x hx => h x (List.mem_cons_of_mem a hx)) ⟨e, hel, hef⟩ acc

set_option maxRecDepth 8192 in
/-- C7 (counterexample).  The claim says determine_row_format_type returns
SERDE_WITH_PROPERTIES whenever the with-serdeproperties marker is present.
On the sub-clause index of the segment below the marker is present (offset
46), but the delimited marker sits at a smaller offset (11); because the
function scans the index in ascending-offset order and stops at DELIMITED,
it returns DELIMITED instead. -/
theorem c7_counterexample :
    (∃ e ∈ indexDdlClauses
        "row format delimited fields terminated by \x27x\x27 with serdeproperties (\x27a\x27=\x27b\x27)".toList
        ddlRowFormatSubclausesList,
      e.clause = "with serdeproperties (".toList ∧ e.index ≠ NOT_FOUND) ∧
    determineRowFormatType (indexDdlClauses
        "row format delimited fields terminated by \x27x\x27 with serdeproperties (\x27a\x27=\x27b\x27)".toList
        ddlRowFormatSubclausesList) = .ok .delimitedFmt := by
  constructor
  · decide
  · rfl

/-- C7 (amended): over every sorted row-format sub-clause index (the stable
ascending sort of the nine catalog entries with arbitrary recorded offsets),
determine_row_format_type raises when none of the serde, with-serdeproperties
and delimited markers is found; it returns SERDE_WITH_PROPERTIES when the
with-serdeproperties marker is found and no found delimited marker precedes
it; it returns DELIMITED when the delimited marker is found and precedes any
found with-serdeproperties marker; and it returns SERDE when the serde
marker is found and neither terminal marker is. -/
theorem c7_row_format_classification (iF iE iC iM iL2 iN iS iW iD : Int) :
    (iW = -1 ∧ iS = -1 ∧ iD = -1 →
      determineRowFormatType (sortByIndex (rowEntries iF iE iC iM iL2 iN iS iW iD)) =
        .error .pyException) ∧
    (iW ≠ -1 ∧ (iD = -1 ∨ iW < iD) →
      determineRowFormatType (sortByIndex (rowEntries iF iE iC iM iL2 iN iS iW iD)) =
        .ok .serdeWithPropertiesFmt) ∧
    (iD ≠ -1 ∧ (iW = -1 ∨ iD < iW) →
      determineRowFormatType (sortByIndex (rowEntries iF iE iC iM iL2 iN iS iW iD)) =
        .ok .delimitedFmt) ∧
    (iS ≠ -1 ∧ iW = -1 ∧ iD = -1 →
      determineRowFormatType (sortByIndex (rowEntries iF iE iC iM iL2 iN iS iW iD)) =
        .ok .serdeFmt) := by
  have hperm : (sortByIndex (rowEntries iF iE iC iM iL2 iN iS iW iD)).Perm
      (rowEntries iF iE iC iM iL2 iN iS iW iD) := List.perm_insertionSort clauseLe _
  have hmemE : ∀ a, a ∈ sortByIndex (rowEntries iF iE iC iM iL2 iN iS iW iD) →
      a ∈ rowEntries iF iE iC iM iL2 iN iS iW iD := fun a ha => hperm.mem_iff.mp ha
  have hmemL : ∀ a, a ∈ rowEntries iF iE iC iM iL2 iN iS iW iD →
      a ∈ sortByIndex (rowEntries iF iE iC iM iL2 iN iS iW iD) := fun a ha =>
    hperm.mem_iff.mpr ha
  have hsorted : List.Pairwise clauseLe (sortByIndex (rowEntries iF iE iC iM iL2 iN iS iW iD)) :=
    List.sorted_insertionSort clauseLe _
  have hnodup : (sortByIndex (rowEntries iF iE iC iM iL2 iN iS iW iD)).Nodup :=
    hperm.nodup_iff.mpr (rowEntries_nodup iF iE iC iM iL2 iN iS iW iD)
  have huniq := rowEntries_clause_unique iF iE iC iM iL2 iN iS iW iD
  refine ⟨?_, ?_, ?_, ?_⟩
  · rintro ⟨hW, hS, hD⟩
    unfold determineRowFormatType
    rw [determineLoop_acc _ ?_ none]
    intro e he
    have hu := huniq e (hmemE e he)
    refine ⟨?_, ?_, ?_⟩
    · rintro ⟨hcl, hidx⟩
      rw [hu.1 hcl] at hidx
      exact hidx (by unfold NOT_FOUND; exact hW ▸ rfl)
    · rintro ⟨hcl, hidx⟩
      rw [hu.2.1 hcl] at hidx
      exact hidx (by unfold NOT_FOUND; exact hS ▸ rfl)
    · rintro ⟨hcl, hidx⟩
      rw [hu.2.2 hcl] at hidx
      exact hidx (by unfold NOT_FOUND; exact hD ▸ rfl)
  · rintro ⟨hW, hD⟩
    have hmem : (⟨"with serdeproperties (".toList, iW⟩ : ClauseIdx) ∈
        sortByIndex (rowEntries iF iE iC iM iL2 iN iS iW iD) := by
      apply hmemL
      simp [rowEntries]
    obtain ⟨as, bs, hsplit⟩ := List.append_of_mem hmem
    unfold determineRowFormatType
    rw [hsplit, determineLoop_break_withprops as bs _
      ⟨rfl, by unfold NOT_FOUND; simpa using hW⟩ ?_ none]
    intro a ha
    have haL : a ∈ sortByIndex (rowEntries iF iE iC iM iL2 iN iS iW iD) := by
      rw [hsplit]
      exact List.mem_append_left _ ha
    have hu := huniq a (hmemE a haL)
    constructor
    · rintro ⟨hcl, _⟩
      have hae := hu.1 hcl
      have hnd := hnodup
      rw [hsplit] at hnd
      have hdisj := (List.nodup_append.mp hnd).2.2
      exact (hdisj ha (hae ▸ List.mem_cons_self _ bs)).elim
    · rintro ⟨hcl, hidx⟩
      have hae := hu.2.2 hcl
      have hleq : clauseLe a ⟨"with serdeproperties (".toList, iW⟩ := by
        have hpw := hsorted
        rw [hsplit] at hpw
        exact (List.pairwise_append.mp hpw).2.2 a ha _ (List.mem_cons_self _ bs)
      rw [hae] at hleq hidx
      unfold clauseLe at hleq
      unfold NOT_FOUND at hidx
      simp only at hleq hidx
      rcases hD with h1 | h1
      · exact hidx h1
      · omega
  · rintro ⟨hD, hW⟩
    have hmem : (⟨"delimited".toList, iD⟩ : ClauseIdx) ∈
        sortByIndex (rowEntries iF iE iC iM iL2 iN iS iW iD) := by
      apply hmemL
      simp [rowEntries]
    obtain ⟨as, bs, hsplit⟩ := List.append_of_mem hmem
    unfold determineRowFormatType
    rw [hsplit, determineLoop_break_delimited as bs _
      ⟨rfl, by unfold NOT_FOUND; simpa using hD⟩ ?_ none]
    intro a ha
    have haL : a ∈ sortByIndex (rowEntries iF iE iC iM iL2 iN iS iW iD) := by
      rw [hsplit]
      exact List.mem_append_left _ ha
    have hu := huniq a (hmemE a haL)
    constructor
    · rintro ⟨hcl, hidx⟩
      have hae := hu.1 hcl
      have hleq : clauseLe a ⟨"delimited".toList, iD⟩ := by
        have hpw := hsorted
        rw [hsplit] at hpw
        exact (List.pairwise_append.mp hpw).2.2 a ha _ (List.mem_cons_self _ bs)
      rw [hae] at hleq hidx
      unfold clauseLe at hleq
      unfold NOT_FOUND at hidx
      simp only at hleq hidx
      rcases hW with h1 | h1
      · exact hidx h1
      · omega
    · rintro ⟨hcl, _⟩
      have hae := hu.2.2 hcl
      have hnd := hnodup
      rw [hsplit] at hnd
      have hdisj := (List.nodup_append.mp hnd).2.2
      exact (hdisj ha (hae ▸ List.mem_cons_self _ bs)).elim
  · rintro ⟨hS, hW, hD⟩
    unfold determineRowFormatType
    rw [determineLoop_serde_only _ ?_ ?_ none]
    · intro e he
      have hu := huniq e (hmemE e he)
      constructor
      · rintro ⟨hcl, hidx⟩
        rw [hu.1 hcl] at hidx
        exact hidx (by unfold NOT_FOUND; exact hW ▸ rfl)
      · rintro ⟨hcl, hidx⟩
        rw [hu.2.2 hcl] at hidx
        exact hidx (by unfold NOT_FOUND; exact hD ▸ rfl)
    · refine ⟨⟨"serde \x27".toList, iS⟩, ?_, rfl, ?_⟩
      · apply hmemL
        simp [rowEntries]
      · unfold NOT_FOUND
        simpa using hS

/-- C7 (witness): a with-serdeproperties marker at offset 5 with a serde
marker at offset 2 and no delimited marker classifies as
SERDE_WITH_PROPERTIES. -/
theorem c7_witness :
    determineRowFormatType
        (sortByIndex (rowEntries (-1) (-1) (-1) (-1) (-1) (-1) 2 5 (-1))) =
      .ok .serdeWithPropertiesFmt :=
  (c7_row_format_classification (-1) (-1) (-1) (-1) (-1) (-1) 2 5 (-1)).2.1
    ⟨by decide, Or.inl rfl⟩

/- Row-format default equivalence. -/

/-- C2: for every metadata and every DDL segment list containing no row-format
segment, if the metadata serialization library lies in the apache namespace
(the source tests the prefix org.apache., which covers
org.apache.hadoop.hive.serde2.lazy.LazySimpleSerDe) and the SerdeInfo
Parameters contain exactly serialization.format mapped to 1 (so no delimiter
parameters), then has_row_format_changed reports no change. -/
theorem c2_default_serde_no_change (md : TableMetadata) (segs : List (List Char))
    (hseg : ∀ s ∈ segs, ¬ ("row format ".toList.isPrefixOf s = true))
    (hlib : "org.apache.".toList.isPrefixOf
      md.storageDescriptor.serdeInfo.serializationLibrary = true)
    (hparams : md.storageDescriptor.serdeInfo.parameters =
      [("serialization.format".toList, "1".toList)]) :
    hasRowFormatChanged md segs = .ok false := by
  have hfind : segs.find? (fun seg => "row format ".toList.isPrefixOf seg) = none :=
    List.find?_eq_none.mpr hseg
  unfold hasRowFormatChanged
  rw [hfind]
  unfold hasRowFormatSerdeChanged
  dsimp only
  rw [if_pos hlib]
  unfold haveRowFormatDelimitersChanged getMetaRowFormatDelimiters
  rw [hparams]
  dsimp only
  rw [if_neg (by decide), if_pos hlib]

/-- C2 (witness): the default-equivalence scenario of the spec at concrete
metadata and an empty segment list. -/
theorem c2_witness :
    (∀ s ∈ ([] : List (List Char)), ¬ ("row format ".toList.isPrefixOf s = true)) ∧
    hasRowFormatChanged
      ⟨⟨[⟨"id".toList, "int".toList, none⟩], [], 0,
        ⟨"org.apache.hadoop.hive.serde2.lazy.LazySimpleSerDe".toList,
         [("serialization.format".toList, "1".toList)]⟩,
        "org.apache.hadoop.mapred.TextInputFormat".toList,
        "org.apache.hadoop.hive.ql.io.HiveIgnoreKeyTextOutputFormat".toList,
        "s3://b/t".toList⟩, [], []⟩ [] = .ok false :=
  ⟨by decide, c2_default_serde_no_change _ [] (by decide) (by decide) rfl⟩

/- The ordered, short-circuiting change detector. -/

/-- Specification helper: the segments that has_table_structure_changed
derives from the text following the columns list. -/
def ddlSegmentsAfter (rest : List Char) : List (List Char) :=
  segLoop (pyStrip rest) (indexDdlClauses (pyStrip rest) ddlClausesList)

lemma segmentize_ok (t : List Char) (l : List ClauseIdx) (h : 2 ≤ l.length) :
    segmentizeDdlByClause t l = .ok (segLoop t l) := by
  rcases l with _ | ⟨a, _ | ⟨b, l3⟩⟩
  · simp at h
  · simp at h
  · rfl

@[simp] lemma firstChange_nil : firstChange [] = .ok false := rfl

@[simp] lemma firstChange_cons_false (l : List (Except PyErr Bool)) :
    firstChange (.ok false :: l) = firstChange l := rfl

@[simp] lemma firstChange_cons_true (l : List (Except PyErr Bool)) :
    firstChange (.ok true :: l) = .ok true := rfl

@[simp] lemma firstChange_cons_error (e : PyErr) (l : List (Except PyErr Bool)) :
    firstChange (.error e :: l) = .error e := rfl

lemma firstChange_prefix_true :
    ∀ (rs1 : List (Except PyErr Bool)), (∀ x ∈ rs1, x = .ok false) →
      ∀ (r : Except PyErr Bool) (rs2 : List (Except PyErr Bool)), r = .ok true →
        firstChange (rs1 ++ r :: rs2) = .ok true := by
  intro rs1
  induction rs1 with
  | nil =>
    intro _ r rs2 hr
    rw [hr]
    rfl
  | cons x t ih =>
    intro h r rs2 hr
    have hx := h x (List.mem_cons_self x t)
    rw [List.cons_append, hx, firstChange_cons_false]
    exact ih (fun y hy => h y (List.mem_cons_of_mem x hy)) r rs2 hr

lemma firstChange_false_iff :
    ∀ (rs : List (Except PyErr Bool)),
      firstChange rs = .ok false ↔ ∀ x ∈ rs, x = .ok false := by
  intro rs
  induction rs with
  | nil => simp
  | cons r t ih =>
    cases r with
    | error e =>
      rw [firstChange_cons_error]
      constructor
      · intro h
        exact absurd h (by simp)
      · intro h
        have := h (.error e) (List.mem_cons_self _ t)
        exact absurd this (by simp)
    | ok b =>
      cases b
      · rw [firstChange_cons_false, ih]
        constructor
        · intro h x hx
          rcases List.mem_cons.mp hx with h1 | h1
          · rw [h1]
          · exact h x h1
        · intro h x hx
          exact h x (List.mem_cons_of_mem _ hx)
      · rw [firstChange_cons_true]
        constructor
        · intro h
          exact absurd h (by simp)
        · intro h
          have := h (.ok true) (List.mem_cons_self _ t)
          exact absurd this (by simp)

lemma structureChanged_eq (ddl : List Char) (md : TableMetadata) :
    hasTableStructureChanged ddl md =
      match splitDdlColumnsSegment ddl with
      | .error e => .error e
      | .ok (cols, rest) =>
        firstChange [.ok (haveColumnsChanged md cols),
          hasTableCommentChanged md (ddlSegmentsAfter rest),
          hasPartitioningChanged md (ddlSegmentsAfter rest),
          hasClusteringChanged md (ddlSegmentsAfter rest),
          hasRowFormatChanged md (ddlSegmentsAfter rest),
          hasFileFormatChanged md (ddlSegmentsAfter rest),
          hasTableLocationChanged md (ddlSegmentsAfter rest),
          haveTblpropertiesChanged md (ddlSegmentsAfter rest)] := by
  cases hs : splitDdlColumnsSegment ddl with
  | error e =>
    unfold hasTableStructureChanged
    rw [hs]
  | ok pr =>
    obtain ⟨cols, rest⟩ := pr
    unfold hasTableStructureChanged
    rw [hs]
    dsimp only
    have hseg2 : segmentizeDdlByClause (pyStrip rest)
        (indexDdlClauses (pyStrip rest) ddlClausesList) = .ok (ddlSegmentsAfter rest) := by
      unfold ddlSegmentsAfter
      apply segmentize_ok
      rw [index_length]
      decide
    rw [hseg2]
    dsimp only
    cases hcols : haveColumnsChanged md cols
    · rw [if_neg (by decide)]
      cases h1 : hasTableCommentChanged md (ddlSegmentsAfter rest) with
      | error e => rfl
      | ok b1 =>
        cases b1
        · cases h2 : hasPartitioningChanged md (ddlSegmentsAfter rest) with
          | error e => rfl
          | ok b2 =>
            cases b2
            · cases h3 : hasClusteringChanged md (ddlSegmentsAfter rest) with
              | error e => rfl
              | ok b3 =>
                cases b3
                · cases h4 : hasRowFormatChanged md (ddlSegmentsAfter rest) with
                  | error e => rfl
                  | ok b4 =>
                    cases b4
                    · cases h5 : hasFileFormatChanged md (ddlSegmentsAfter rest) with
                      | error e => rfl
                      | ok b5 =>
                        cases b5
                        · cases h6 : hasTableLocationChanged md (ddlSegmentsAfter rest) with
                          | error e => rfl
                          | ok b6 =>
                            cases b6
                            · cases h7 : haveTblpropertiesChanged md (ddlSegmentsAfter rest) with
                              | error e => rfl
                              | ok b7 => cases b7 <;> rfl
                            · rfl
                        · rfl
                    · rfl
                · rfl
            · rfl
        · rfl
    · rw [if_pos (by decide)]
      rfl

/-- C1: has_table_structure_changed evaluates its eight clause comparators in
the fixed order columns, table comment, partitioning, clustering, row format,
file format, location, tblproperties (first conjunct: the detector equals the
ordered short-circuit fold of exactly that comparator list); the fold returns
True as soon as one comparator reports a change, independently of everything
that follows it, so no later comparator can influence the result (second
conjunct); and it returns False exactly when all comparators report no change
(third conjunct). -/
theorem c1_ordered_short_circuit (ddl : List Char) (md : TableMetadata) :
    (hasTableStructureChanged ddl md =
      match splitDdlColumnsSegment ddl with
      | .error e => .error e
      | .ok (cols, rest) =>
        firstChange [.ok (haveColumnsChanged md cols),
          hasTableCommentChanged md (ddlSegmentsAfter rest),
          hasPartitioningChanged md (ddlSegmentsAfter rest),
          hasClusteringChanged md (ddlSegmentsAfter rest),
          hasRowFormatChanged md (ddlSegmentsAfter rest),
          hasFileFormatChanged md (ddlSegmentsAfter rest),
          hasTableLocationChanged md (ddlSegmentsAfter rest),
          haveTblpropertiesChanged md (ddlSegmentsAfter rest)]) ∧
    (∀ (rs1 : List (Except PyErr Bool)) (r : Except PyErr Bool)
        (rs2 rs3 : List (Except PyErr Bool)), (∀ x ∈ rs1, x = .ok false) → r = .ok true →
      firstChange (rs1 ++ r :: rs2) = .ok true ∧
        firstChange (rs1 ++ r :: rs2) = firstChange (rs1 ++ r :: rs3)) ∧
    (∀ rs : List (Except PyErr Bool),
      firstChange rs = .ok false ↔ ∀ x ∈ rs, x = .ok false) := by
  refine ⟨structureChanged_eq ddl md, ?_, firstChange_false_iff⟩
  intro rs1 r rs2 rs3 h1 h2
  constructor
  · exact firstChange_prefix_true rs1 h1 r rs2 h2
  · rw [firstChange_prefix_true rs1 h1 r rs2 h2, firstChange_prefix_true rs1 h1 r rs3 h2]

/-- C1 (witness): the short-circuit fold instantiated concretely; an error
placed after the first change does not affect the verdict. -/
theorem c1_witness :
    firstChange [Except.ok false, Except.ok true, Except.error PyErr.pyException] =
        .ok true ∧
    firstChange [Except.ok false, Except.ok true, Except.error PyErr.pyException] =
      firstChange [Except.ok false, Except.ok true] :=
  (c1_ordered_short_circuit [] ⟨⟨[], [], 0, ⟨[], []⟩, [], [], []⟩, [], []⟩).2.1
    [Except.ok false] (Except.ok true) [Except.error PyErr.pyException] []
    (by intro x hx; simp only [List.mem_singleton] at hx; exact hx) rfl

/-- C9 (counterexample).  The claim says that whenever the DDL segments
contain no location segment the comparison aborts with an error and no
boolean verdict is returned.  For the DDL consisting only of a columns list
that differs from the metadata columns, the segment list is empty (so there
is no location segment), yet the columns comparator fires first and the
detector returns the boolean verdict True. -/
theorem c9_counterexample :
    splitDdlColumnsSegment "(id int)".toList = .ok ("id int".toList, []) ∧
    ddlSegmentsAfter [] = [] ∧
    hasTableStructureChanged "(id int)".toList
      ⟨⟨[⟨"idx".toList, "int".toList, none⟩], [], 0,
        ⟨"org.apache.hadoop.hive.serde2.lazy.LazySimpleSerDe".toList,
         [("serialization.format".toList, "1".toList)]⟩,
        "org.apache.hadoop.mapred.TextInputFormat".toList,
        "org.apache.hadoop.hive.ql.io.HiveIgnoreKeyTextOutputFormat".toList,
        "s3://b/t".toList⟩, [], []⟩ = .ok true := by
  refine ⟨rfl, rfl, rfl⟩

/-- C9 (amended): for every metadata and DDL, if the comparison returns the
no-change verdict False then the DDL's segments contained a location segment;
equivalently, when the segments contain no location segment the comparison
never reports no-change -- it either returns True from an earlier comparator
or propagates an error to the caller, so a missing LOCATION clause never
silently defaults. -/
theorem c9_no_location_never_no_change (ddl : List Char) (md : TableMetadata)
    (h : hasTableStructureChanged ddl md = .ok false) :
    ∃ cols rest seg, splitDdlColumnsSegment ddl = .ok (cols, rest) ∧
      seg ∈ ddlSegmentsAfter rest ∧ "location".toList.isPrefixOf seg = true := by
  have heq := structureChanged_eq ddl md
  rw [h] at heq
  cases hs : splitDdlColumnsSegment ddl with
  | error e =>
    rw [hs] at heq
    exact absurd heq (by simp)
  | ok pr =>
    obtain ⟨cols, rest⟩ := pr
    rw [hs] at heq
    dsimp only at heq
    have hall := (firstChange_false_iff _).mp heq.symm
    have hloc := hall (hasTableLocationChanged md (ddlSegmentsAfter rest)) (by simp)
    unfold hasTableLocationChanged at hloc
    cases hfind : (ddlSegmentsAfter rest).find?
        (fun seg => "location".toList.isPrefixOf seg) with
    | none =>
      rw [hfind] at hloc
      exact absurd hloc (by simp)
    | some seg =>
      rw [hfind] at hloc
      exact ⟨cols, rest, seg, rfl, List.mem_of_find?_eq_some hfind, List.find?_some hfind⟩

set_option maxRecDepth 100000 in
/-- C9 (witness): the amended statement applied to a concrete DDL and
metadata for which the comparison runs through all eight comparators and
returns False; the exhibited segment is the location segment. -/
theorem c9_witness :
    ∃ cols rest seg,
      splitDdlColumnsSegment "(id int) location \x27s3://b/t\x27".toList = .ok (cols, rest) ∧
      seg ∈ ddlSegmentsAfter rest ∧ "location".toList.isPrefixOf seg = true :=
  c9_no_location_never_no_change "(id int) location \x27s3://b/t\x27".toList
    ⟨⟨[⟨"id".toList, "int".toList, none⟩], [], 0,
      ⟨"org.apache.hadoop.hive.serde2.lazy.LazySimpleSerDe".toList,
       [("serialization.format".toList, "1".toList)]⟩,
      "org.apache.hadoop.mapred.TextInputFormat".toList,
      "org.apache.hadoop.hive.ql.io.HiveIgnoreKeyTextOutputFormat".toList,
      "s3://b/t".toList⟩, [], []⟩ rfl

set_option maxRecDepth 100000 in
/-- C10: has_file_format_changed raises an unhandled UnboundLocalError on a
stored-as segment in the explicit INPUTFORMAT form without an OUTPUTFORMAT
token whose input format equals the metadata InputFormat: the success branch
reads the never-assigned outputformat local.  The second conjunct reaches the
same failure from the public detector entry point. -/
theorem c10_unbound_local_error :
    hasFileFormatChanged
      ⟨⟨[⟨"id".toList, "int".toList, none⟩], [], 0,
        ⟨"org.apache.hadoop.hive.serde2.lazy.LazySimpleSerDe".toList,
         [("serialization.format".toList, "1".toList)]⟩,
        "org.custom.In".toList, "org.custom.Out".toList, "s3://b/t".toList⟩, [], []⟩
      ["stored as inputformat \x27org.custom.in\x27".toList] = .error .unboundLocalError ∧
    hasTableStructureChanged
      "(id int) stored as inputformat \x27org.custom.in\x27 location \x27s3://b/t\x27".toList
      ⟨⟨[⟨"id".toList, "int".toList, none⟩], [], 0,
        ⟨"org.apache.hadoop.hive.serde2.lazy.LazySimpleSerDe".toList,
         [("serialization.format".toList, "1".toList)]⟩,
        "org.custom.In".toList, "org.custom.Out".toList, "s3://b/t".toList⟩, [], []⟩ =
      .error .unboundLocalError := by
  refine ⟨rfl, rfl⟩

end DdlPipeline
